import Mathlib

/-!
Shallow embedding of the differential-growth simulator core
(`src/sim.rs`, `src/geometry.rs`) over exact real arithmetic.
`f64` values are modelled as `ℝ`; `usize`/`u64` as `ℕ`.
Each definition mirrors the corresponding Rust item; the PRNG internals
(`rand::StdRng`) and the region-constraint kernel are absent from `src/`
and are modelled from the specification where noted.
-/

noncomputable section

open Real List

/-- 2D vector with real coordinates, modelling `glam::DVec2`. -/
structure Vec2 where
  x : ℝ
  y : ℝ

namespace Vec2

/-- `Vec2::ZERO`. -/
def zero : Vec2 := ⟨0, 0⟩

instance : Add Vec2 := ⟨fun a b => ⟨a.x + b.x, a.y + b.y⟩⟩

instance : Sub Vec2 := ⟨fun a b => ⟨a.x - b.x, a.y - b.y⟩⟩

instance : Neg Vec2 := ⟨fun a => ⟨-a.x, -a.y⟩⟩

/-- Scalar multiplication on the right, `v * c` in glam. -/
def mul (v : Vec2) (c : ℝ) : Vec2 := ⟨v.x * c, v.y * c⟩

/-- Scalar division, `v / c` in glam. -/
def div (v : Vec2) (c : ℝ) : Vec2 := ⟨v.x / c, v.y / c⟩

/-- `DVec2::length_squared`. -/
def lengthSquared (v : Vec2) : ℝ := v.x * v.x + v.y * v.y

/-- `DVec2::length`. -/
def length (v : Vec2) : ℝ := Real.sqrt v.lengthSquared

/-- `DVec2::distance`. -/
def distance (a b : Vec2) : ℝ := (b - a).length

/-- `DVec2::lerp`: `a + (b - a) * t`. -/
def lerp (a b : Vec2) (t : ℝ) : Vec2 := a + (b - a).mul t

theorem ext_iff {a b : Vec2} : a = b ↔ a.x = b.x ∧ a.y = b.y := by
  cases a; cases b; simp

@[simp] theorem add_def (a b : Vec2) : a + b = ⟨a.x + b.x, a.y + b.y⟩ := rfl

@[simp] theorem sub_def (a b : Vec2) : a - b = ⟨a.x - b.x, a.y - b.y⟩ := rfl

@[simp] theorem add_zero' (a : Vec2) : a + zero = a := by
  simp [zero, ext_iff]

end Vec2

/-- `Polygon` from `geometry.rs`: an ordered cyclic vertex list. -/
structure Polygon where
  vertices : List Vec2

namespace Polygon

/-- `Polygon::new` (empty). -/
def new : Polygon := ⟨[]⟩

/-- `Polygon::len`. -/
def len (p : Polygon) : ℕ := p.vertices.length

/-- One vertex of the regular n-gon: `(r·cos(2πi/n), r·sin(2πi/n))`
(`TAU * i / sides` in the source). -/
def ngonVertex (radius : ℝ) (sides i : ℕ) : Vec2 :=
  ⟨radius * Real.cos (2 * π * i / sides), radius * Real.sin (2 * π * i / sides)⟩

/-- `Polygon::regular_ngon`: empty when `sides < 3` or `radius ≤ 0`, else
`sides` vertices on the circle at angles `TAU·i/sides`. -/
def regular_ngon (radius : ℝ) (sides : ℕ) : Polygon :=
  if sides < 3 ∨ radius ≤ 0 then ⟨[]⟩
  else ⟨(List.range sides).map (ngonVertex radius sides)⟩

/-- `Polygon::centroid`: arithmetic mean of the vertices, `None` when empty. -/
def centroid (p : Polygon) : Option Vec2 :=
  if p.vertices.isEmpty then none
  else
    let sum := p.vertices.foldl (fun acc v => acc + v) Vec2.zero
    some (sum.div p.vertices.length)

end Polygon

/-- `SimParams` from `sim.rs` (the version under `src/`, which has no
constraint fields). -/
structure SimParams where
  edge_regularization_enabled : Bool
  target_edge_length : ℝ
  edge_stiffness : ℝ
  repulsion_enabled : Bool
  repulsion_radius : ℝ
  repulsion_strength : ℝ
  growth_enabled : Bool
  growth_rate : ℝ
  split_enabled : Bool
  split_length : ℝ
  jitter_enabled : Bool
  jitter_strength : ℝ

/-- Modelled from the spec: the simulator's PRNG is `rand::StdRng`, whose
internals are not part of this repository's sources; §4.1 of the spec gives
the reference generator, an `xorshift*` with shifts 12/25/27 and multiplier
`0x2545F4914F6CDD1D`. This is the state-scramble step (the new state). -/
def rngScramble (s : ℕ) : ℕ :=
  let s1 := s ^^^ (s >>> 12)
  let s2 := s1 ^^^ ((s1 <<< 25) % 2 ^ 64)
  s2 ^^^ (s2 >>> 27)

/-- Modelled from the spec: the 64-bit output of one PRNG step, the scrambled
state multiplied by the fixed constant. -/
def rngOutput (s : ℕ) : ℕ :=
  (rngScramble s * 0x2545F4914F6CDD1D) % 2 ^ 64

/-- Modelled from the spec: `new(seed)` with seed 0 remapped to the fixed
nonzero constant `0x9E3779B97F4A7C15`. -/
def rngNew (seed : ℕ) : ℕ :=
  if seed % 2 ^ 64 = 0 then 0x9E3779B97F4A7C15 else seed % 2 ^ 64

/-- Modelled from the spec: `next_signed_unit()` returns `2·u − 1` where
`u` is the top 53 bits of the 64-bit output divided by `2^53`; the PRNG
state advances to the scrambled state. Returns `(value, new state)`. -/
def next_signed_unit (s : ℕ) : ℝ × ℕ :=
  (2 * ((rngOutput s >>> 11 : ℕ) : ℝ) / 2 ^ 53 - 1, rngScramble s)

/-- Cyclic vertex access used throughout `step`: all source indices are
already reduced `mod n`, so a defaulted list lookup is exact. -/
def pget (P : List Vec2) (i : ℕ) : Vec2 := P.getD i Vec2.zero

/-- `delta[i] += v`. -/
def updAdd (d : ℕ → Vec2) (i : ℕ) (v : Vec2) : ℕ → Vec2 :=
  fun k => if k = i then d k + v else d k

/-- `delta[i] -= v`. -/
def updSub (d : ℕ → Vec2) (i : ℕ) (v : Vec2) : ℕ → Vec2 :=
  fun k => if k = i then d k - v else d k

/-- `are_neighbors` from `sim.rs`. -/
def are_neighbors (i j n : ℕ) : Prop :=
  n < 2 ∨ i = j ∨ j = (i + 1) % n ∨ j = (i + n - 1) % n

instance (i j n : ℕ) : Decidable (are_neighbors i j n) := by
  unfold are_neighbors; infer_instance

/-- `signed_area` from `sim.rs`. -/
def signed_area (points : List Vec2) : ℝ :=
  let n := points.length
  if n < 3 then 0
  else
    0.5 * (List.range n).foldl (fun sum i =>
      let a := pget points i
      let b := pget points ((i + 1) % n)
      sum + (a.x * b.y - b.x * a.y)) 0

/-- The edge-regularization loop body of `Simulation::step` (one edge `i`). -/
def edgeSpringBody (P : List Vec2) (params : SimParams) (d : ℕ → Vec2) (i : ℕ) :
    ℕ → Vec2 :=
  let n := P.length
  let j := (i + 1) % n
  let dv := pget P j - pget P i
  let len := dv.length
  if 1e-12 < len then
    let dir := dv.div len
    let error := len - params.target_edge_length
    let correction := dir.mul (error * params.edge_stiffness * 0.5)
    updSub (updAdd d i correction) j correction
  else d

/-- The edge-regularization pass of `Simulation::step`. -/
def edgeSpringFold (P : List Vec2) (params : SimParams) (d : ℕ → Vec2) : ℕ → Vec2 :=
  (List.range P.length).foldl (edgeSpringBody P params) d

/-- The repulsion inner-loop body of `Simulation::step` (one pair `(i, j)`). -/
def repulsionBody (P : List Vec2) (params : SimParams) (i : ℕ) (d : ℕ → Vec2)
    (j : ℕ) : ℕ → Vec2 :=
  let n := P.length
  let radius_sq := params.repulsion_radius * params.repulsion_radius
  if are_neighbors i j n then d
  else
    let dv := pget P j - pget P i
    let dist_sq := dv.lengthSquared
    if dist_sq ≤ 1e-18 ∨ radius_sq ≤ dist_sq then d
    else
      let dist := Real.sqrt dist_sq
      let dir := dv.div dist
      let proximity := 1 - dist / params.repulsion_radius
      let mag := params.repulsion_strength * proximity
      let push := dir.mul (mag * 0.5)
      updAdd (updSub d i push) j push

/-- The pairwise-repulsion pass of `Simulation::step`: all pairs `i < j`. -/
def repulsionFold (P : List Vec2) (params : SimParams) (d : ℕ → Vec2) : ℕ → Vec2 :=
  let n := P.length
  (List.range n).foldl (fun d i =>
    (List.range' (i + 1) (n - (i + 1))).foldl (repulsionBody P params i) d) d

/-- The growth loop body of `Simulation::step` (one vertex `i`). -/
def growthBody (P : List Vec2) (params : SimParams) (outward_sign : ℝ)
    (d : ℕ → Vec2) (i : ℕ) : ℕ → Vec2 :=
  let n := P.length
  let prev := pget P ((i + n - 1) % n)
  let next := pget P ((i + 1) % n)
  let tangent := next - prev
  let len := tangent.length
  if len ≤ 1e-12 then d
  else
    let dir := tangent.div len
    let normal := (Vec2.mk dir.y (-dir.x)).mul outward_sign
    updAdd d i (normal.mul params.growth_rate)

/-- The outward-normal growth pass of `Simulation::step`. -/
def growthFold (P : List Vec2) (params : SimParams) (d : ℕ → Vec2) : ℕ → Vec2 :=
  let area := signed_area P
  let outward_sign : ℝ := if 0 ≤ area then -1 else 1
  (List.range P.length).foldl (growthBody P params outward_sign) d

/-- The jitter pass of `Simulation::step`: two signed-unit draws per vertex
(x then y), scaled by `jitter_strength`; threads the PRNG state. -/
def jitterFold (n : ℕ) (strength : ℝ) (d : ℕ → Vec2) (rng : ℕ) :
    (ℕ → Vec2) × ℕ :=
  (List.range n).foldl (fun acc i =>
    let jx := (next_signed_unit acc.2).1 * strength
    let r1 := (next_signed_unit acc.2).2
    let jy := (next_signed_unit r1).1 * strength
    let r2 := (next_signed_unit r1).2
    (updAdd acc.1 i (Vec2.mk jx jy), r2)) (d, rng)

/-- One block of the edge-split pass: vertex `a` followed by the interior
subdivision points of edge `(a, b)` when it exceeds the split length. -/
def splitBlock (positions : List Vec2) (split_length : ℝ) (i : ℕ) : List Vec2 :=
  let n := positions.length
  let a := pget positions i
  let b := pget positions ((i + 1) % n)
  let len := Vec2.distance a b
  a :: (if split_length < len then
          let segments := ⌈len / split_length⌉₊
          if 1 < segments then
            (List.range' 1 (segments - 1)).map
              (fun k : ℕ => a.lerp b ((k : ℝ) / (segments : ℝ)))
          else []
        else [])

/-- The edge-split remesher of `Simulation::step`. -/
def splitEdges (positions : List Vec2) (split_length : ℝ) : List Vec2 :=
  (List.range positions.length).foldl
    (fun acc i => acc ++ splitBlock positions split_length i) []

/-- `u64::saturating_add(1)` on the generation counter. -/
def saturating_add_one (g : ℕ) : ℕ := min (g + 1) (2 ^ 64 - 1)

/-- `Simulation` state: polygon, generation counter, PRNG state. -/
structure Simulation where
  polygon : Polygon
  generation : ℕ
  rng : ℕ

namespace Simulation

/-- `Simulation::new`. -/
def new (seed : ℕ) : Simulation := ⟨Polygon.new, 0, rngNew seed⟩

/-- `Simulation::reset_seed`. -/
def reset_seed (sim : Simulation) (seed : ℕ) : Simulation :=
  { sim with rng := rngNew seed }

/-- `Simulation::rebuild_polygon`. -/
def rebuild_polygon (sim : Simulation) (radius : ℝ) (sides : ℕ) : Simulation :=
  { sim with polygon := Polygon.regular_ngon radius sides, generation := 0 }

/-- The displacement field accumulated by the four force kernels of
`Simulation::step`, with the PRNG state after jitter. -/
def forceDeltas (positions : List Vec2) (params : SimParams) (rng : ℕ) :
    (ℕ → Vec2) × ℕ :=
  let d0 : ℕ → Vec2 := fun _ => Vec2.zero
  let d1 := if params.edge_regularization_enabled ∧ 0 < params.edge_stiffness ∧
               0 < params.target_edge_length
            then edgeSpringFold positions params d0 else d0
  let d2 := if params.repulsion_enabled ∧ 0 < params.repulsion_strength ∧
               0 < params.repulsion_radius
            then repulsionFold positions params d1 else d1
  let d3 := if params.growth_enabled ∧ params.growth_rate ≠ 0
            then growthFold positions params d2 else d2
  if params.jitter_enabled ∧ 0 < params.jitter_strength
  then jitterFold positions.length params.jitter_strength d3 rng
  else (d3, rng)

/-- The vertex positions after applying the displacement field
(`*v += d` in the source). -/
def forcedPositions (positions : List Vec2) (params : SimParams) (rng : ℕ) :
    List Vec2 :=
  (List.range positions.length).map
    (fun i => pget positions i + (forceDeltas positions params rng).1 i)

/-- `Simulation::step`: early return on the empty polygon (no generation
increment), else snapshot, accumulate forces, apply, optionally split,
and saturating-increment the generation. -/
def step (sim : Simulation) (params : SimParams) : Simulation :=
  if sim.polygon.vertices.length = 0 then sim
  else
    let positions := sim.polygon.vertices
    let newPositions := forcedPositions positions params sim.rng
    let afterSplit := if params.split_enabled ∧ 0 < params.split_length ∧
                         2 ≤ newPositions.length
                      then splitEdges newPositions params.split_length
                      else newPositions
    { polygon := ⟨afterSplit⟩,
      generation := saturating_add_one sim.generation,
      rng := (forceDeltas positions params sim.rng).2 }

/-- `k` successive steps with the same parameter value. -/
def stepN (sim : Simulation) (params : SimParams) : ℕ → Simulation
  | 0 => sim
  | k + 1 => (stepN sim params k).step params

/-- Driving a simulation by a sequence of per-step parameter values. -/
def runSteps (sim : Simulation) (ps : List SimParams) : Simulation :=
  ps.foldl step sim

end Simulation

/-- `regular_ngon_edge_length` from `sim.rs`. -/
def regular_ngon_edge_length (radius : ℝ) (sides : ℕ) : ℝ :=
  if radius ≤ 0 ∨ sides < 3 then 0
  else 2 * radius * Real.sin (π / sides)

/-- Modelled from the spec: the region-constraint kernel is absent from the
sources under `src/` (only its GUI caller and the spec describe it), so the
shapes follow §4.7. -/
inductive ConstraintShape
  | Circle
  | Square
  | Triangle

/-- Modelled from the spec: falloff selector of the region constraint. -/
inductive ConstraintFalloff
  | Linear
  | Quadratic

/-- Modelled from the spec: membership in the convex constraint region
centered at the origin (§4.7): circle by radius, square by max-norm,
equilateral triangle (apex `(0, size)`) by three half-plane inequalities. -/
def insideRegion (shape : ConstraintShape) (size : ℝ) (p : Vec2) : Prop :=
  match shape with
  | ConstraintShape.Circle => p.length ≤ size
  | ConstraintShape.Square => max |p.x| |p.y| ≤ size
  | ConstraintShape.Triangle =>
      let a : Vec2 := ⟨0, size⟩
      let b : Vec2 := ⟨-(Real.sqrt 3 / 2) * size, -(size / 2)⟩
      let c : Vec2 := ⟨Real.sqrt 3 / 2 * size, -(size / 2)⟩
      0 ≤ (b - a).x * (p - a).y - (b - a).y * (p - a).x ∧
      0 ≤ (c - b).x * (p - b).y - (c - b).y * (p - b).x ∧
      0 ≤ (a - c).x * (p - c).y - (a - c).y * (p - c).x

instance (shape : ConstraintShape) (size : ℝ) (p : Vec2) :
    Decidable (insideRegion shape size p) := by
  unfold insideRegion; cases shape <;> infer_instance

/-- Modelled from the spec: closest point of a segment to `p`, by clamped
projection; used for the triangle boundary. -/
def closestPointOnSegment (a b p : Vec2) : Vec2 :=
  let ab := b - a
  let denom := ab.lengthSquared
  if denom ≤ 0 then a
  else
    let t := max 0 (min 1 (((p - a).x * ab.x + (p - a).y * ab.y) / denom))
    a + ab.mul t

/-- Modelled from the spec: nearest point of the constraint-region boundary
to an exterior vertex (§4.7): radial projection for the circle, clamping for
the square, closest of the three edges for the triangle. -/
def nearestBoundaryPoint (shape : ConstraintShape) (size : ℝ) (p : Vec2) : Vec2 :=
  match shape with
  | ConstraintShape.Circle => p.mul (size / p.length)
  | ConstraintShape.Square =>
      ⟨min (max p.x (-size)) size, min (max p.y (-size)) size⟩
  | ConstraintShape.Triangle =>
      let a : Vec2 := ⟨0, size⟩
      let b : Vec2 := ⟨-(Real.sqrt 3 / 2) * size, -(size / 2)⟩
      let c : Vec2 := ⟨Real.sqrt 3 / 2 * size, -(size / 2)⟩
      let q1 := closestPointOnSegment a b p
      let q2 := closestPointOnSegment b c p
      let q3 := closestPointOnSegment c a p
      if Vec2.distance p q1 ≤ Vec2.distance p q2 ∧
         Vec2.distance p q1 ≤ Vec2.distance p q3 then q1
      else if Vec2.distance p q2 ≤ Vec2.distance p q3 then q2
      else q3

/-- Modelled from the spec: the falloff factor of §4.7,
`Linear → min 1 (δ/size)`, `Quadratic → min 1 ((δ/size)²)`. -/
def falloffFactor (falloff : ConstraintFalloff) (size δ : ℝ) : ℝ :=
  match falloff with
  | ConstraintFalloff.Linear => min 1 (δ / size)
  | ConstraintFalloff.Quadratic => min 1 ((δ / size) ^ 2)

/-- Modelled from the spec: per-vertex contribution of the region constraint
(§4.7): zero inside; outside, `û · (δ · constraint_strength · f)` where `δ`
is the distance to the nearest boundary point and `û` the unit direction
toward it. -/
def constraintContribution (shape : ConstraintShape) (falloff : ConstraintFalloff)
    (size strength : ℝ) (p : Vec2) : Vec2 :=
  if insideRegion shape size p then Vec2.zero
  else
    let q := nearestBoundaryPoint shape size p
    let δ := Vec2.distance p q
    let u := (q - p).div δ
    u.mul (δ * strength * falloffFactor falloff size δ)

/-- Modelled from the spec: the region-constraint pass, adding the per-vertex
contribution into the displacement buffer, vertex by vertex. -/
def constraintFold (P : List Vec2) (shape : ConstraintShape)
    (falloff : ConstraintFalloff) (size strength : ℝ) (d : ℕ → Vec2) : ℕ → Vec2 :=
  (List.range P.length).foldl
    (fun d i => updAdd d i
      (constraintContribution shape falloff size strength (pget P i))) d

namespace Vec2

theorem mul_zero' (v : Vec2) : v.mul 0 = zero := by
  simp [mul, zero]

theorem add_comm' (a b : Vec2) : a + b = b + a := by
  simp [ext_iff]; constructor <;> ring

theorem add_assoc' (a b c : Vec2) : a + b + c = a + (b + c) := by
  simp [ext_iff]; constructor <;> ring

theorem zero_add' (a : Vec2) : zero + a = a := by
  simp [zero, ext_iff]

theorem add_right_swap (a v b : Vec2) : a + v + b = a + b + v := by
  simp [ext_iff]; constructor <;> ring

end Vec2

/-- A fold whose body fixes every accumulator it meets is the identity. -/
theorem foldl_id {α β : Type} (f : α → β → α) (l : List β)
    (h : ∀ a b, b ∈ l → f a b = a) (a : α) : l.foldl f a = a := by
  induction l generalizing a with
  | nil => rfl
  | cons x xs ih =>
      rw [List.foldl_cons, h a x (List.mem_cons_self x xs)]
      exact ih (fun a b hb => h a b (List.mem_cons_of_mem x hb)) a

/-- A fold whose body preserves an invariant preserves it overall. -/
theorem foldl_invariant {α β : Type} (Q : α → Prop) (f : α → β → α) (l : List β)
    (h : ∀ a b, b ∈ l → Q a → Q (f a b)) (a : α) (ha : Q a) : Q (l.foldl f a) := by
  induction l generalizing a with
  | nil => exact ha
  | cons x xs ih =>
      exact ih (fun a b hb => h a b (List.mem_cons_of_mem x hb)) _
        (h a x (List.mem_cons_self x xs) ha)

/-- Sum of the first `n` entries of a displacement field. -/
def sumRange (d : ℕ → Vec2) : ℕ → Vec2
  | 0 => Vec2.zero
  | n + 1 => sumRange d n + d n

theorem sumRange_congr {d e : ℕ → Vec2} {n : ℕ} (h : ∀ i, i < n → d i = e i) :
    sumRange d n = sumRange e n := by
  induction n with
  | zero => rfl
  | succ n ih =>
      simp only [sumRange, ih (fun i hi => h i (Nat.lt_succ_of_lt hi)),
        h n (Nat.lt_succ_self n)]

theorem sumRange_updAdd (d : ℕ → Vec2) (j : ℕ) (v : Vec2) (n : ℕ) (h : j < n) :
    sumRange (updAdd d j v) n = sumRange d n + v := by
  induction n with
  | zero => omega
  | succ n ih =>
      rcases Nat.lt_succ_iff_lt_or_eq.mp h with h' | h'
      · have hne : n ≠ j := by omega
        simp only [sumRange, ih h', updAdd, if_neg hne]
        exact Vec2.add_right_swap _ _ _
      · subst h'
        have hpre : sumRange (updAdd d j v) j = sumRange d j :=
          sumRange_congr (fun i hi => by simp [updAdd, Nat.ne_of_lt hi])
        simp only [sumRange, hpre, updAdd, if_pos rfl]
        exact (Vec2.add_assoc' _ _ _).symm

theorem sumRange_updSub (d : ℕ → Vec2) (j : ℕ) (v : Vec2) (n : ℕ) (h : j < n) :
    sumRange (updSub d j v) n = sumRange d n - v := by
  induction n with
  | zero => omega
  | succ n ih =>
      rcases Nat.lt_succ_iff_lt_or_eq.mp h with h' | h'
      · have hne : n ≠ j := by omega
        simp only [sumRange, ih h', updSub, if_neg hne]
        simp [Vec2.ext_iff]; constructor <;> ring
      · subst h'
        have hpre : sumRange (updSub d j v) j = sumRange d j :=
          sumRange_congr (fun i hi => by simp [updSub, Nat.ne_of_lt hi])
        simp only [sumRange, hpre, updSub, if_pos rfl]
        simp [Vec2.ext_iff]; constructor <;> ring

theorem sumRange_zero_fun (n : ℕ) : sumRange (fun _ => Vec2.zero) n = Vec2.zero := by
  induction n with
  | zero => rfl
  | succ n ih =>
      rw [sumRange, ih]
      simp [Vec2.zero, Vec2.ext_iff]

/-- Indexing a mapped range list. -/
theorem pget_map_range (f : ℕ → Vec2) (n i : ℕ) (h : i < n) :
    pget ((List.range n).map f) i = f i := by
  have hlen : i < ((List.range n).map f).length := by simpa using h
  rw [pget, List.getD_eq_getElem _ _ hlen]
  simp

/-- Rebuilding a list from its `pget` entries. -/
theorem map_pget_range (l : List Vec2) :
    (List.range l.length).map (pget l) = l := by
  apply List.ext_getElem
  · simp
  · intro i h1 h2
    simp only [List.getElem_map, List.getElem_range]
    rw [pget, List.getD_eq_getElem _ _ h2]

/-- A left fold of accumulated additions over a range, as a `Finset` sum. -/
theorem foldl_add_range (f : ℕ → ℝ) (c : ℝ) (n : ℕ) :
    (List.range n).foldl (fun s i => s + f i) c = c + ∑ i ∈ Finset.range n, f i := by
  induction n with
  | zero => simp
  | succ n ih =>
      rw [List.range_succ, List.foldl_append, ih, Finset.sum_range_succ,
        List.foldl_cons, List.foldl_nil]
      ring

namespace Polygon

theorem regular_ngon_vertices (radius : ℝ) (sides : ℕ) (hr : 0 < radius)
    (hs : 3 ≤ sides) :
    (regular_ngon radius sides).vertices =
      (List.range sides).map (ngonVertex radius sides) := by
  rw [regular_ngon, if_neg]
  push_neg
  exact ⟨by omega, hr⟩

theorem ngonVertex_mod (radius : ℝ) (n m : ℕ) (hn : n ≠ 0) :
    ngonVertex radius n (m % n) = ngonVertex radius n m := by
  have hn' : (n : ℝ) ≠ 0 := Nat.cast_ne_zero.mpr hn
  have hq : ((m % n : ℕ) : ℝ) = (m : ℝ) - (n : ℝ) * ((m / n : ℕ) : ℝ) := by
    have h := Nat.mod_add_div m n
    have h' : ((m % n + n * (m / n) : ℕ) : ℝ) = ((m : ℕ) : ℝ) := by rw [h]
    push_cast at h'
    linarith
  have hper_cos : ∀ (x : ℝ) (q : ℕ), Real.cos (x + (q : ℝ) * (2 * π)) = Real.cos x := by
    intro x q
    have h := Real.cos_add_int_mul_two_pi x (q : ℤ)
    push_cast at h
    exact h
  have hper_sin : ∀ (x : ℝ) (q : ℕ), Real.sin (x + (q : ℝ) * (2 * π)) = Real.sin x := by
    intro x q
    have h := Real.sin_add_int_mul_two_pi x (q : ℤ)
    push_cast at h
    exact h
  have harg : 2 * π * (m : ℝ) / n =
      2 * π * ((m % n : ℕ) : ℝ) / n + ((m / n : ℕ) : ℝ) * (2 * π) := by
    rw [hq]
    field_simp
    ring
  have hc : Real.cos (2 * π * ((m % n : ℕ) : ℝ) / n) =
      Real.cos (2 * π * (m : ℝ) / n) := by
    rw [harg, hper_cos]
  have hsin : Real.sin (2 * π * ((m % n : ℕ) : ℝ) / n) =
      Real.sin (2 * π * (m : ℝ) / n) := by
    rw [harg, hper_sin]
  unfold ngonVertex
  rw [hc, hsin]

end Polygon

theorem pget_ngon (r : ℝ) (n i : ℕ) (h : i < n) :
    pget ((List.range n).map (Polygon.ngonVertex r n)) i = Polygon.ngonVertex r n i :=
  pget_map_range _ _ _ h

/-- Squared chord length between two points on the circle of radius `r`. -/
theorem chord_lengthSquared (r a b : ℝ) :
    (Vec2.mk (r * Real.cos b) (r * Real.sin b) -
      Vec2.mk (r * Real.cos a) (r * Real.sin a)).lengthSquared =
      (2 * r * Real.sin ((b - a) / 2)) ^ 2 := by
  simp only [Vec2.sub_def, Vec2.lengthSquared]
  have e1 : r * Real.cos b - r * Real.cos a =
      -2 * r * (Real.sin ((b + a) / 2) * Real.sin ((b - a) / 2)) := by
    linear_combination r * Real.cos_sub_cos b a
  have e2 : r * Real.sin b - r * Real.sin a =
      2 * r * (Real.sin ((b - a) / 2) * Real.cos ((b + a) / 2)) := by
    linear_combination r * Real.sin_sub_sin b a
  rw [e1, e2]
  linear_combination (4 * r ^ 2 * Real.sin ((b - a) / 2) ^ 2) *
    Real.sin_sq_add_cos_sq ((b + a) / 2)

/-- Chord length between two points on the circle of radius `r`, when the
half-angle difference has nonnegative sine. -/
theorem chord_length (r a b : ℝ) (hr : 0 ≤ r) (hs : 0 ≤ Real.sin ((b - a) / 2)) :
    (Vec2.mk (r * Real.cos b) (r * Real.sin b) -
      Vec2.mk (r * Real.cos a) (r * Real.sin a)).length =
      2 * r * Real.sin ((b - a) / 2) := by
  rw [Vec2.length, chord_lengthSquared, Real.sqrt_sq (by positivity)]

/-- On the regular `n`-gon, the sine of an interior chord half-angle is at
least the sine of the edge half-angle. -/
theorem sin_chord_ge (n k : ℕ) (hn : 3 ≤ n) (hk1 : 1 ≤ k) (hk2 : k ≤ n - 1) :
    Real.sin (π / n) ≤ Real.sin (π * k / n) := by
  have hn0 : (0 : ℝ) < n := by
    have h3 : (0 : ℕ) < n := by omega
    exact_mod_cast h3
  have hk1r : (1 : ℝ) ≤ (k : ℝ) := by exact_mod_cast hk1
  have hk2r : (k : ℝ) ≤ (n : ℝ) - 1 := by
    have h : ((k : ℕ) : ℝ) ≤ ((n - 1 : ℕ) : ℝ) := Nat.cast_le.mpr hk2
    rwa [Nat.cast_sub (by omega), Nat.cast_one] at h
  have hn2 : (2 : ℝ) ≤ n := by
    have h2 : (2 : ℕ) ≤ n := by omega
    exact_mod_cast h2
  have hπn_pos : 0 < π / n := by positivity
  have hπn_le : π / n ≤ π / 2 := by
    rw [div_le_div_iff hn0 (by norm_num)]
    nlinarith [Real.pi_pos]
  have hlow : π / n ≤ π * k / n := by
    rw [div_le_div_iff hn0 hn0]
    nlinarith [mul_le_mul_of_nonneg_left hk1r (show (0:ℝ) ≤ π * n by positivity)]
  have hhigh : π * k / n ≤ π - π / n := by
    rw [div_le_iff hn0]
    have he : (π - π / n) * n = π * n - π := by field_simp
    rw [he]
    nlinarith [mul_le_mul_of_nonneg_left hk2r Real.pi_pos.le]
  have hpi := Real.pi_pos
  rcases le_or_lt (π * k / n) (π / 2) with hc | hc
  · exact Real.strictMonoOn_sin.monotoneOn ⟨by linarith, hπn_le⟩
      ⟨by linarith, hc⟩ hlow
  · rw [(Real.sin_pi_sub (π * k / n)).symm]
    exact Real.strictMonoOn_sin.monotoneOn ⟨by linarith, hπn_le⟩
      ⟨by linarith, by linarith⟩ (by linarith)

namespace Vec2

@[simp] theorem sub_zero' (a : Vec2) : a - zero = a := by
  simp [zero, ext_iff]

end Vec2

theorem updAdd_zero (d : ℕ → Vec2) (i : ℕ) : updAdd d i Vec2.zero = d := by
  funext k
  simp [updAdd, Vec2.zero, Vec2.ext_iff]

theorem updSub_zero (d : ℕ → Vec2) (i : ℕ) : updSub d i Vec2.zero = d := by
  funext k
  simp [updSub, Vec2.zero, Vec2.ext_iff]

/-- `regular_ngon_edge_length` in closed form for valid arguments. -/
theorem regular_ngon_edge_length_eq (r : ℝ) (n : ℕ) (hr : 0 < r) (hn : 3 ≤ n) :
    regular_ngon_edge_length r n = 2 * r * Real.sin (π / n) := by
  rw [regular_ngon_edge_length, if_neg]
  push_neg
  exact ⟨hr, by omega⟩

/-- Every edge of the regular n-gon has the chord length `2·r·sin(π/n)`. -/
theorem ngon_edge_length (r : ℝ) (n i : ℕ) (hr : 0 ≤ r) (hn : 3 ≤ n) (hi : i < n) :
    (pget ((List.range n).map (Polygon.ngonVertex r n)) ((i + 1) % n) -
      pget ((List.range n).map (Polygon.ngonVertex r n)) i).length =
      2 * r * Real.sin (π / n) := by
  have hn0 : n ≠ 0 := by omega
  have hnr : (0 : ℝ) < n := by
    have h : (0 : ℕ) < n := by omega
    exact_mod_cast h
  rw [pget_ngon _ _ _ (Nat.mod_lt _ (by omega)), pget_ngon _ _ _ hi,
    Polygon.ngonVertex_mod _ _ _ hn0]
  have hb : (2 * π * ((i + 1 : ℕ) : ℝ) / n - 2 * π * (i : ℝ) / n) / 2 = π / n := by
    push_cast
    field_simp
    ring
  have hs : 0 ≤ Real.sin ((2 * π * ((i + 1 : ℕ) : ℝ) / n - 2 * π * (i : ℝ) / n) / 2) := by
    rw [hb]
    exact Real.sin_nonneg_of_nonneg_of_le_pi (by positivity)
      (div_le_self Real.pi_pos.le (by exact_mod_cast by omega))
  have h := chord_length r (2 * π * (i : ℝ) / n) (2 * π * ((i + 1 : ℕ) : ℝ) / n) hr hs
  rw [hb] at h
  exact h

/-- Squared distance between two n-gon vertices `i < j < n`. -/
theorem ngon_pair_lengthSquared (r : ℝ) (n i j : ℕ) (hi : i < n) (hj : j < n) :
    (pget ((List.range n).map (Polygon.ngonVertex r n)) j -
      pget ((List.range n).map (Polygon.ngonVertex r n)) i).lengthSquared =
      (2 * r * Real.sin (π * ((j : ℝ) - (i : ℝ)) / n)) ^ 2 := by
  rw [pget_ngon _ _ _ hj, pget_ngon _ _ _ hi]
  have h := chord_lengthSquared r (2 * π * (i : ℝ) / n) (2 * π * (j : ℝ) / n)
  have hb : (2 * π * (j : ℝ) / n - 2 * π * (i : ℝ) / n) / 2 = π * ((j : ℝ) - (i : ℝ)) / n := by
    by_cases hn0 : (n : ℝ) = 0
    · rw [hn0]
      simp
    · field_simp
      ring
  rw [hb] at h
  exact h

namespace Simulation

/-- When all four kernels are gated off, the displacement field is zero and
the PRNG is untouched. -/
theorem forceDeltas_disabled (P : List Vec2) (params : SimParams) (rng : ℕ)
    (h1 : params.edge_regularization_enabled = false)
    (h2 : params.repulsion_enabled = false)
    (h3 : params.growth_enabled = false)
    (h5 : params.jitter_enabled = false) :
    forceDeltas P params rng = (fun _ => Vec2.zero, rng) := by
  simp [forceDeltas, h1, h2, h3, h5]

/-- A zero displacement field leaves the applied positions unchanged. -/
theorem forcedPositions_of_zero (P : List Vec2) (params : SimParams) (rng : ℕ)
    (h : (forceDeltas P params rng).1 = fun _ => Vec2.zero) :
    forcedPositions P params rng = P := by
  unfold forcedPositions
  rw [h]
  simp only [Vec2.add_zero']
  exact map_pget_range P

/-- Frame form of `step` under a zero displacement field and disabled split:
only the generation counter and the PRNG component can change. -/
theorem step_eq_of_zero_delta (sim : Simulation) (params : SimParams)
    (hne : sim.polygon.vertices.length ≠ 0)
    (hdelta : (forceDeltas sim.polygon.vertices params sim.rng).1 = fun _ => Vec2.zero)
    (hsplit : params.split_enabled = false) :
    sim.step params =
      { sim with generation := saturating_add_one sim.generation,
                 rng := (forceDeltas sim.polygon.vertices params sim.rng).2 } := by
  unfold step
  rw [if_neg hne]
  simp only [hsplit, Bool.false_eq_true, false_and, if_false,
    forcedPositions_of_zero _ _ _ hdelta]

end Simulation

/-- Claim C4 (counterexample): stepping the empty polygon of a fresh
simulation leaves the generation counter at 0, not 1 — `step` returns before
the increment. -/
theorem C4_counterexample :
    ((Simulation.new 0).step
        ⟨false, 0, 0, false, 0, 0, false, 0, false, 0, false, 0⟩).generation ≠ 1 := by
  simp [Simulation.step, Simulation.new, Polygon.new]

/-- Claim C4 (amended): calling `step` on a simulation whose polygon is empty
is a complete no-op for any `SimParams`: the polygon stays empty and the
generation counter is unchanged (starting at 0 it stays 0, not 1). -/
theorem C4_empty_step_noop (sim : Simulation) (params : SimParams)
    (h : sim.polygon.vertices = []) : sim.step params = sim := by
  unfold Simulation.step
  rw [if_pos (by rw [h]; rfl)]

/-- Witness for C4: concrete empty simulation and concrete parameters. -/
theorem C4_empty_step_noop_witness :
    (Simulation.new 0).polygon.vertices = [] ∧
    (Simulation.new 0).step ⟨false, 0, 0, false, 0, 0, false, 0, false, 0, false, 0⟩ =
      Simulation.new 0 :=
  ⟨rfl, C4_empty_step_noop _ _ rfl⟩

/-- Claim C10: with all five kernel gates off, `step` on a non-empty polygon
leaves the polygon and the PRNG state unchanged and saturating-increments the
generation. -/
theorem C10_all_disabled_frame (sim : Simulation) (params : SimParams)
    (hne : sim.polygon.vertices ≠ [])
    (h1 : params.edge_regularization_enabled = false)
    (h2 : params.repulsion_enabled = false)
    (h3 : params.growth_enabled = false)
    (h4 : params.split_enabled = false)
    (h5 : params.jitter_enabled = false) :
    (sim.step params).polygon = sim.polygon ∧
    (sim.step params).rng = sim.rng ∧
    (sim.step params).generation = min (sim.generation + 1) (2 ^ 64 - 1) := by
  have hlen : sim.polygon.vertices.length ≠ 0 := by
    simpa using hne
  have hfd := Simulation.forceDeltas_disabled sim.polygon.vertices params sim.rng h1 h2 h3 h5
  have hstep := Simulation.step_eq_of_zero_delta sim params hlen (by rw [hfd]) h4
  rw [hstep, hfd]
  exact ⟨rfl, rfl, rfl⟩

/-- Witness for C10: a concrete triangle, concrete generation and PRNG state,
all gates off. -/
theorem C10_all_disabled_frame_witness :
    (Simulation.mk ⟨[⟨0, 0⟩, ⟨1, 0⟩, ⟨0, 1⟩]⟩ 5 7).polygon.vertices ≠ [] ∧
    (((Simulation.mk ⟨[⟨0, 0⟩, ⟨1, 0⟩, ⟨0, 1⟩]⟩ 5 7).step
        ⟨false, 0, 0, false, 0, 0, false, 0, false, 0, false, 0⟩).polygon =
      (Simulation.mk ⟨[⟨0, 0⟩, ⟨1, 0⟩, ⟨0, 1⟩]⟩ 5 7).polygon ∧
    ((Simulation.mk ⟨[⟨0, 0⟩, ⟨1, 0⟩, ⟨0, 1⟩]⟩ 5 7).step
        ⟨false, 0, 0, false, 0, 0, false, 0, false, 0, false, 0⟩).rng =
      (Simulation.mk ⟨[⟨0, 0⟩, ⟨1, 0⟩, ⟨0, 1⟩]⟩ 5 7).rng ∧
    ((Simulation.mk ⟨[⟨0, 0⟩, ⟨1, 0⟩, ⟨0, 1⟩]⟩ 5 7).step
        ⟨false, 0, 0, false, 0, 0, false, 0, false, 0, false, 0⟩).generation =
      min ((Simulation.mk ⟨[⟨0, 0⟩, ⟨1, 0⟩, ⟨0, 1⟩]⟩ 5 7).generation + 1) (2 ^ 64 - 1)) :=
  ⟨by simp, C10_all_disabled_frame _ _ (by simp) rfl rfl rfl rfl rfl⟩

/-- Claim C2: two simulations with the same seed, the same rebuilt polygon
and the same parameter sequence have identical polygons and generation
counters after every step (every prefix of the sequence). -/
theorem C2_determinism (seed₁ seed₂ : ℕ) (r₁ r₂ : ℝ) (n₁ n₂ : ℕ)
    (ps₁ ps₂ : List SimParams)
    (hseed : seed₁ = seed₂) (hr : r₁ = r₂) (hn : n₁ = n₂) (hps : ps₁ = ps₂) :
    ∀ k : ℕ,
      (Simulation.runSteps ((Simulation.new seed₁).rebuild_polygon r₁ n₁)
          (ps₁.take k)).polygon =
        (Simulation.runSteps ((Simulation.new seed₂).rebuild_polygon r₂ n₂)
          (ps₂.take k)).polygon ∧
      (Simulation.runSteps ((Simulation.new seed₁).rebuild_polygon r₁ n₁)
          (ps₁.take k)).generation =
        (Simulation.runSteps ((Simulation.new seed₂).rebuild_polygon r₂ n₂)
          (ps₂.take k)).generation := by
  subst hseed
  subst hr
  subst hn
  subst hps
  intro k
  exact ⟨rfl, rfl⟩

/-- Witness for C2: equal concrete seeds, radii, side counts and parameter
lists, checked after the first step. -/
theorem C2_determinism_witness :
    (Simulation.runSteps ((Simulation.new 42).rebuild_polygon 1 4)
        ([⟨true, 1, 1, false, 0, 0, false, 0, false, 0, false, 0⟩].take 1)).polygon =
      (Simulation.runSteps ((Simulation.new 42).rebuild_polygon 1 4)
        ([⟨true, 1, 1, false, 0, 0, false, 0, false, 0, false, 0⟩].take 1)).polygon ∧
    (Simulation.runSteps ((Simulation.new 42).rebuild_polygon 1 4)
        ([⟨true, 1, 1, false, 0, 0, false, 0, false, 0, false, 0⟩].take 1)).generation =
      (Simulation.runSteps ((Simulation.new 42).rebuild_polygon 1 4)
        ([⟨true, 1, 1, false, 0, 0, false, 0, false, 0, false, 0⟩].take 1)).generation :=
  C2_determinism 42 42 1 1 4 4 _ _ rfl rfl rfl rfl 1

/-- Claim C5 (counterexample): there is a PRNG state whose next signed-unit
draw is exactly −1, not strictly greater: the state whose 64-bit output is 1,
so the top 53 bits are all zero. -/
theorem C5_counterexample :
    ¬ (-1 < (next_signed_unit 11013388057781577488).1) := by
  have h0 : rngOutput 11013388057781577488 >>> 11 = 0 := by decide
  unfold next_signed_unit
  rw [h0]
  norm_num

/-- Claim C5 (amended): every signed-unit draw lies in the half-open interval
`[−1, 1)`: at least −1 (with −1 attained exactly when the top 53 output bits
vanish) and strictly below 1. -/
theorem C5_signed_unit_range (s : ℕ) :
    -1 ≤ (next_signed_unit s).1 ∧ (next_signed_unit s).1 < 1 := by
  unfold next_signed_unit
  constructor
  · have h : (0 : ℝ) ≤ ((rngOutput s >>> 11 : ℕ) : ℝ) := Nat.cast_nonneg _
    have h2 : (0 : ℝ) ≤ 2 * ((rngOutput s >>> 11 : ℕ) : ℝ) / 2 ^ 53 := by positivity
    simpa using h2
  · have hout : rngOutput s < 2 ^ 64 := Nat.mod_lt _ (by norm_num)
    have hlt : rngOutput s >>> 11 < 2 ^ 53 := by
      rw [Nat.shiftRight_eq_div_pow]
      have h64 : (2 : ℕ) ^ 53 * 2 ^ 11 = 2 ^ 64 := by norm_num
      exact Nat.div_lt_of_lt_mul (h64 ▸ hout)
    have hltr : ((rngOutput s >>> 11 : ℕ) : ℝ) < 2 ^ 53 := by exact_mod_cast hlt
    have hd : 2 * ((rngOutput s >>> 11 : ℕ) : ℝ) / 2 ^ 53 < 2 := by
      rw [div_lt_iff (by norm_num : (0:ℝ) < 2 ^ 53)]
      push_cast
      linarith
    linarith

/-- A fold of per-index additions never touches indices past the range. -/
theorem foldl_updAdd_out (g : ℕ → Vec2) (n : ℕ) (d : ℕ → Vec2) (k : ℕ)
    (hk : n ≤ k) :
    ((List.range n).foldl (fun d j => updAdd d j (g j)) d) k = d k := by
  induction n with
  | zero => rfl
  | succ n ih =>
      rw [List.range_succ, List.foldl_append, List.foldl_cons, List.foldl_nil]
      have hkn : k ≠ n := by omega
      simp only [updAdd, if_neg hkn]
      exact ih (by omega)

/-- A fold of per-index additions adds exactly the indexed value at each
in-range index. -/
theorem foldl_updAdd_at (g : ℕ → Vec2) (n i : ℕ) (hi : i < n) (d : ℕ → Vec2) :
    ((List.range n).foldl (fun d j => updAdd d j (g j)) d) i = d i + g i := by
  induction n with
  | zero => omega
  | succ n ih =>
      rw [List.range_succ, List.foldl_append, List.foldl_cons, List.foldl_nil]
      rcases Nat.lt_succ_iff_lt_or_eq.mp hi with h' | h'
      · have hne : i ≠ n := by omega
        simp only [updAdd, if_neg hne]
        exact ih h'
      · subst h'
        simp only [updAdd, if_pos rfl]
        rw [foldl_updAdd_out g i d i le_rfl]
        simp

/-- Claim C3: the region-constraint pass adds, to each vertex outside the
region, the displacement `û · (δ · constraint_strength · f)` toward the
nearest boundary point (`δ` the penetration depth, `f` the falloff factor),
and adds nothing to vertices inside the region. -/
theorem C3_constraint_kernel (shape : ConstraintShape) (falloff : ConstraintFalloff)
    (size strength : ℝ) (P : List Vec2) (d : ℕ → Vec2) (i : ℕ)
    (hi : i < P.length) :
    (insideRegion shape size (pget P i) →
      constraintFold P shape falloff size strength d i = d i) ∧
    (¬ insideRegion shape size (pget P i) →
      constraintFold P shape falloff size strength d i =
        d i +
          ((nearestBoundaryPoint shape size (pget P i) - pget P i).div
              (Vec2.distance (pget P i) (nearestBoundaryPoint shape size (pget P i)))).mul
            (Vec2.distance (pget P i) (nearestBoundaryPoint shape size (pget P i)) *
              strength *
              falloffFactor falloff size
                (Vec2.distance (pget P i)
                  (nearestBoundaryPoint shape size (pget P i))))) := by
  have hfold : constraintFold P shape falloff size strength d i =
      d i + constraintContribution shape falloff size strength (pget P i) :=
    foldl_updAdd_at _ _ _ hi d
  constructor
  · intro hin
    rw [hfold, constraintContribution, if_pos hin, Vec2.add_zero']
  · intro hout
    rw [hfold, constraintContribution, if_neg hout]

/-- Witness for C3: circle of radius 1, linear falloff, vertex at `(2, 0)`. -/
theorem C3_constraint_kernel_witness :
    0 < ([(⟨2, 0⟩ : Vec2)] : List Vec2).length ∧
    ((insideRegion ConstraintShape.Circle 1 (pget [(⟨2, 0⟩ : Vec2)] 0) →
      constraintFold [(⟨2, 0⟩ : Vec2)] ConstraintShape.Circle ConstraintFalloff.Linear
          1 (1 / 2) (fun _ => Vec2.zero) 0 = (fun _ => Vec2.zero) 0) ∧
    (¬ insideRegion ConstraintShape.Circle 1 (pget [(⟨2, 0⟩ : Vec2)] 0) →
      constraintFold [(⟨2, 0⟩ : Vec2)] ConstraintShape.Circle ConstraintFalloff.Linear
          1 (1 / 2) (fun _ => Vec2.zero) 0 =
        (fun _ => Vec2.zero) 0 +
          ((nearestBoundaryPoint ConstraintShape.Circle 1 (pget [(⟨2, 0⟩ : Vec2)] 0) -
              pget [(⟨2, 0⟩ : Vec2)] 0).div
              (Vec2.distance (pget [(⟨2, 0⟩ : Vec2)] 0)
                (nearestBoundaryPoint ConstraintShape.Circle 1
                  (pget [(⟨2, 0⟩ : Vec2)] 0)))).mul
            (Vec2.distance (pget [(⟨2, 0⟩ : Vec2)] 0)
                (nearestBoundaryPoint ConstraintShape.Circle 1
                  (pget [(⟨2, 0⟩ : Vec2)] 0)) *
              (1 / 2) *
              falloffFactor ConstraintFalloff.Linear 1
                (Vec2.distance (pget [(⟨2, 0⟩ : Vec2)] 0)
                  (nearestBoundaryPoint ConstraintShape.Circle 1
                    (pget [(⟨2, 0⟩ : Vec2)] 0)))))) :=
  ⟨by simp, C3_constraint_kernel ConstraintShape.Circle ConstraintFalloff.Linear
    1 (1 / 2) [(⟨2, 0⟩ : Vec2)] (fun _ => Vec2.zero) 0 (by simp)⟩

/-- On the regular n-gon with the matching target edge length, every edge
spring has zero error, so the regularization pass leaves the displacement
field untouched. -/
theorem edgeSpringFold_ngon (r : ℝ) (n : ℕ) (params : SimParams) (hr : 0 < r)
    (hn : 3 ≤ n) (htarget : params.target_edge_length = 2 * r * Real.sin (π / n))
    (d : ℕ → Vec2) :
    edgeSpringFold ((List.range n).map (Polygon.ngonVertex r n)) params d = d := by
  unfold edgeSpringFold
  apply foldl_id
  intro a i hi
  rw [List.length_map, List.length_range] at hi
  have hi' : i < n := List.mem_range.mp hi
  unfold edgeSpringBody
  simp only [List.length_map, List.length_range]
  rw [ngon_edge_length r n i hr.le hn hi', htarget]
  rw [show 2 * r * Real.sin (π / n) - 2 * r * Real.sin (π / n) = 0 from by ring]
  simp [Vec2.mul_zero', updAdd_zero, updSub_zero]

/-- With repulsion, growth and jitter gated off and an edge-spring pass that
fixes every displacement field, the whole force accumulation is zero. -/
theorem forceDeltas_spring_fixed (P : List Vec2) (params : SimParams) (rng : ℕ)
    (h2 : params.repulsion_enabled = false)
    (h3 : params.growth_enabled = false)
    (h5 : params.jitter_enabled = false)
    (hfix : ∀ d : ℕ → Vec2, edgeSpringFold P params d = d) :
    Simulation.forceDeltas P params rng = (fun _ => Vec2.zero, rng) := by
  unfold Simulation.forceDeltas
  by_cases hg : params.edge_regularization_enabled = true ∧
      0 < params.edge_stiffness ∧ 0 < params.target_edge_length
  · simp [hg, h2, h3, h5, hfix]
  · simp [hg, h2, h3, h5]

/-- One spring-only step on the regular n-gon leaves the polygon unchanged. -/
theorem step_spring_ngon (r : ℝ) (n : ℕ) (params : SimParams) (sim : Simulation)
    (hr : 0 < r) (hn : 3 ≤ n)
    (htarget : params.target_edge_length = regular_ngon_edge_length r n)
    (h2 : params.repulsion_enabled = false)
    (h3 : params.growth_enabled = false)
    (h4 : params.split_enabled = false)
    (h5 : params.jitter_enabled = false)
    (hpoly : sim.polygon.vertices = (List.range n).map (Polygon.ngonVertex r n)) :
    (sim.step params).polygon = sim.polygon := by
  have htarget' : params.target_edge_length = 2 * r * Real.sin (π / n) := by
    rw [htarget, regular_ngon_edge_length_eq r n hr hn]
  have hfd : Simulation.forceDeltas sim.polygon.vertices params sim.rng =
      (fun _ => Vec2.zero, sim.rng) := by
    apply forceDeltas_spring_fixed _ _ _ h2 h3 h5
    intro d
    rw [hpoly]
    exact edgeSpringFold_ngon r n params hr hn htarget' d
  have hlen : sim.polygon.vertices.length ≠ 0 := by
    rw [hpoly]
    simp
    omega
  rw [Simulation.step_eq_of_zero_delta sim params hlen (by rw [hfd]) h4]

/-- Claim C6: the regular n-gon with `target_edge_length =
regular_ngon_edge_length radius sides` is a fixed point of `step` when only
edge regularization is enabled (any stiffness in `[0, 1]`): the polygon is
unchanged after arbitrarily many steps. -/
theorem C6_spring_equilibrium (r : ℝ) (n : ℕ) (params : SimParams)
    (sim : Simulation) (hr : 0 < r) (hn : 3 ≤ n)
    (hes0 : 0 ≤ params.edge_stiffness) (hes1 : params.edge_stiffness ≤ 1)
    (h1 : params.edge_regularization_enabled = true)
    (htarget : params.target_edge_length = regular_ngon_edge_length r n)
    (h2 : params.repulsion_enabled = false)
    (h3 : params.growth_enabled = false)
    (h4 : params.split_enabled = false)
    (h5 : params.jitter_enabled = false)
    (hpoly : sim.polygon = Polygon.regular_ngon r n) :
    ∀ k : ℕ, (Simulation.stepN sim params k).polygon = Polygon.regular_ngon r n := by
  intro k
  induction k with
  | zero => exact hpoly
  | succ k ih =>
      show ((Simulation.stepN sim params k).step params).polygon = _
      rw [step_spring_ngon r n params _ hr hn htarget h2 h3 h4 h5
        (by rw [ih, Polygon.regular_ngon_vertices r n hr hn]), ih]

/-- Witness for C6: unit triangle, stiffness 1/2, two steps. -/
theorem C6_spring_equilibrium_witness :
    (0 : ℝ) < 1 ∧ 3 ≤ 3 ∧
    (Simulation.stepN
        (Simulation.mk (Polygon.regular_ngon 1 3) 0 1)
        ⟨true, regular_ngon_edge_length 1 3, 1 / 2, false, 0, 0, false, 0,
          false, 0, false, 0⟩ 2).polygon = Polygon.regular_ngon 1 3 :=
  ⟨by norm_num, le_rfl,
    C6_spring_equilibrium 1 3 _ _ (by norm_num) le_rfl (by norm_num)
      (by norm_num) rfl rfl rfl rfl rfl rfl rfl 2⟩

/-- On the regular n-gon with repulsion radius below the edge length, every
considered pair is either adjacent (skipped) or at squared distance at least
the squared radius (skipped), so the repulsion pass changes nothing. -/
theorem repulsionFold_ngon (r : ℝ) (n : ℕ) (params : SimParams) (hr : 0 < r)
    (hn : 3 ≤ n) (hrr0 : 0 < params.repulsion_radius)
    (hrad : params.repulsion_radius < 2 * r * Real.sin (π / n))
    (d : ℕ → Vec2) :
    repulsionFold ((List.range n).map (Polygon.ngonVertex r n)) params d = d := by
  have hsin : 0 < Real.sin (π / n) := by
    apply Real.sin_pos_of_pos_of_lt_pi
    · positivity
    · apply div_lt_self Real.pi_pos
      have h1 : (1 : ℕ) < n := by omega
      exact_mod_cast h1
  unfold repulsionFold
  simp only [List.length_map, List.length_range]
  apply foldl_id
  intro a i hi
  have hi' : i < n := List.mem_range.mp hi
  apply foldl_id
  intro b j hj
  have hj' : i + 1 ≤ j ∧ j < i + 1 + (n - (i + 1)) := List.mem_range'_1.mp hj
  have hij : i < j := hj'.1
  have hjn : j < n := by omega
  unfold repulsionBody
  simp only [List.length_map, List.length_range]
  by_cases hnb : are_neighbors i j n
  · rw [if_pos hnb]
  · rw [if_neg hnb]
    have hcast : ((j - i : ℕ) : ℝ) = (j : ℝ) - (i : ℝ) := by
      push_cast [Nat.cast_sub hij.le]
      ring
    have hk := sin_chord_ge n (j - i) hn (by omega) (by omega)
    rw [hcast] at hk
    have hL2 : (2 * r * Real.sin (π / n)) ^ 2 ≤
        (2 * r * Real.sin (π * ((j : ℝ) - (i : ℝ)) / n)) ^ 2 := by
      apply pow_le_pow_left (by positivity)
      have h2r : (0 : ℝ) ≤ 2 * r := by linarith
      calc 2 * r * Real.sin (π / n) ≤ 2 * r * Real.sin (π * ((j : ℝ) - (i : ℝ)) / n) := by
            apply mul_le_mul_of_nonneg_left hk h2r
        _ = 2 * r * Real.sin (π * ((j : ℝ) - (i : ℝ)) / n) := rfl
    have hbound : params.repulsion_radius * params.repulsion_radius ≤
        (pget ((List.range n).map (Polygon.ngonVertex r n)) j -
          pget ((List.range n).map (Polygon.ngonVertex r n)) i).lengthSquared := by
      rw [ngon_pair_lengthSquared r n i j hi' hjn]
      have hrr2 : params.repulsion_radius * params.repulsion_radius <
          (2 * r * Real.sin (π / n)) ^ 2 := by
        have hpow : params.repulsion_radius ^ 2 < (2 * r * Real.sin (π / n)) ^ 2 :=
          pow_lt_pow_left hrad hrr0.le (by norm_num)
        calc params.repulsion_radius * params.repulsion_radius
            = params.repulsion_radius ^ 2 := by ring
          _ < (2 * r * Real.sin (π / n)) ^ 2 := hpow
      linarith
    rw [if_pos (Or.inr hbound)]

/-- With edge springs, growth and jitter gated off and a repulsion pass that
fixes every displacement field (when its radius is positive), the whole force
accumulation is zero. -/
theorem forceDeltas_repulsion_fixed (P : List Vec2) (params : SimParams) (rng : ℕ)
    (h1 : params.edge_regularization_enabled = false)
    (h3 : params.growth_enabled = false)
    (h5 : params.jitter_enabled = false)
    (hfix : 0 < params.repulsion_radius →
      ∀ d : ℕ → Vec2, repulsionFold P params d = d) :
    Simulation.forceDeltas P params rng = (fun _ => Vec2.zero, rng) := by
  unfold Simulation.forceDeltas
  by_cases hg : params.repulsion_enabled = true ∧ 0 < params.repulsion_strength ∧
      0 < params.repulsion_radius
  · simp [h1, h3, h5, hg, hfix hg.2.2]
  · simp [h1, h3, h5, hg]

/-- Claim C9: on a regular n-gon whose adjacent-vertex distance is
`regular_ngon_edge_length radius sides`, a step with only repulsion enabled
and `repulsion_radius` below that distance moves no vertex. -/
theorem C9_repulsion_no_displacement (r : ℝ) (n : ℕ) (params : SimParams)
    (sim : Simulation) (hr : 0 < r) (hn : 3 ≤ n)
    (hstr : 0 < params.repulsion_strength)
    (hrad : params.repulsion_radius < regular_ngon_edge_length r n)
    (hrep : params.repulsion_enabled = true)
    (h1 : params.edge_regularization_enabled = false)
    (h3 : params.growth_enabled = false)
    (h4 : params.split_enabled = false)
    (h5 : params.jitter_enabled = false)
    (hpoly : sim.polygon = Polygon.regular_ngon r n) :
    (sim.step params).polygon = sim.polygon := by
  rw [regular_ngon_edge_length_eq r n hr hn] at hrad
  have hpolyv : sim.polygon.vertices = (List.range n).map (Polygon.ngonVertex r n) := by
    rw [hpoly, Polygon.regular_ngon_vertices r n hr hn]
  have hfd : Simulation.forceDeltas sim.polygon.vertices params sim.rng =
      (fun _ => Vec2.zero, sim.rng) := by
    apply forceDeltas_repulsion_fixed _ _ _ h1 h3 h5
    intro hrr0 d
    rw [hpolyv]
    exact repulsionFold_ngon r n params hr hn hrr0 hrad d
  have hlen : sim.polygon.vertices.length ≠ 0 := by
    rw [hpolyv]
    simp
    omega
  rw [Simulation.step_eq_of_zero_delta sim params hlen (by rw [hfd]) h4]

/-- Witness for C9: unit hexagon (edge length 1), repulsion radius 1/2. -/
theorem C9_repulsion_no_displacement_witness :
    (0 : ℝ) < 1 ∧ (1 / 2 : ℝ) < regular_ngon_edge_length 1 6 ∧
    ((Simulation.mk (Polygon.regular_ngon 1 6) 0 1).step
        ⟨false, 0, 0, true, 1 / 2, 1, false, 0, false, 0, false, 0⟩).polygon =
      (Simulation.mk (Polygon.regular_ngon 1 6) 0 1).polygon :=
  ⟨by norm_num,
   by
     rw [regular_ngon_edge_length_eq 1 6 (by norm_num) (by norm_num)]
     rw [show (π / (6 : ℕ) : ℝ) = π / 6 by norm_num]
     rw [Real.sin_pi_div_six]
     norm_num,
   C9_repulsion_no_displacement 1 6 _ _ (by norm_num) (by norm_num) (by norm_num)
     (by
       rw [regular_ngon_edge_length_eq 1 6 (by norm_num) (by norm_num)]
       rw [show (π / (6 : ℕ) : ℝ) = π / 6 by norm_num]
       rw [Real.sin_pi_div_six]
       norm_num)
     rfl rfl rfl rfl rfl rfl⟩

/-- Each edge-spring update is equal-and-opposite, so it preserves the total
of the displacement field. -/
theorem edgeSpringBody_sum (P : List Vec2) (params : SimParams) (d : ℕ → Vec2)
    (i : ℕ) (hi : i < P.length) :
    sumRange (edgeSpringBody P params d i) P.length = sumRange d P.length := by
  have hn0 : 0 < P.length := by omega
  have hj : (i + 1) % P.length < P.length := Nat.mod_lt _ hn0
  simp only [edgeSpringBody]
  by_cases hc : (1e-12 : ℝ) <
      (pget P ((i + 1) % P.length) - pget P i).length
  · rw [if_pos hc, sumRange_updSub _ _ _ _ hj, sumRange_updAdd _ _ _ _ hi]
    simp [Vec2.ext_iff]
  · rw [if_neg hc]

/-- The edge-spring pass preserves the total displacement. -/
theorem edgeSpringFold_sum (P : List Vec2) (params : SimParams) (d : ℕ → Vec2) :
    sumRange (edgeSpringFold P params d) P.length = sumRange d P.length := by
  unfold edgeSpringFold
  apply foldl_invariant (fun e => sumRange e P.length = sumRange d P.length)
  · intro a i hi ha
    rw [edgeSpringBody_sum P params a i (List.mem_range.mp hi), ha]
  · rfl

/-- Each repulsion update is equal-and-opposite, so it preserves the total of
the displacement field. -/
theorem repulsionBody_sum (P : List Vec2) (params : SimParams) (d : ℕ → Vec2)
    (i j : ℕ) (hi : i < P.length) (hj : j < P.length) :
    sumRange (repulsionBody P params i d j) P.length = sumRange d P.length := by
  simp only [repulsionBody]
  by_cases hnb : are_neighbors i j P.length
  · rw [if_pos hnb]
  · rw [if_neg hnb]
    by_cases hskip : (pget P j - pget P i).lengthSquared ≤ 1e-18 ∨
        params.repulsion_radius * params.repulsion_radius ≤
          (pget P j - pget P i).lengthSquared
    · rw [if_pos hskip]
    · rw [if_neg hskip, sumRange_updAdd _ _ _ _ hj, sumRange_updSub _ _ _ _ hi]
      simp [Vec2.ext_iff]

/-- The repulsion pass preserves the total displacement. -/
theorem repulsionFold_sum (P : List Vec2) (params : SimParams) (d : ℕ → Vec2) :
    sumRange (repulsionFold P params d) P.length = sumRange d P.length := by
  unfold repulsionFold
  apply foldl_invariant (fun e => sumRange e P.length = sumRange d P.length)
  · intro a i hi ha
    apply foldl_invariant (fun e => sumRange e P.length = sumRange d P.length)
    · intro b j hj hb
      have hj' := List.mem_range'_1.mp hj
      have hjlt : j < P.length := by omega
      rw [repulsionBody_sum P params b i j (List.mem_range.mp hi) hjlt, hb]
    · exact ha
  · rfl

/-- With growth and jitter gated off, the accumulated displacement field sums
to zero (springs and repulsion act in equal-and-opposite pairs). -/
theorem forceDeltas_sum (P : List Vec2) (params : SimParams) (rng : ℕ)
    (h3 : params.growth_enabled = false) (h5 : params.jitter_enabled = false) :
    sumRange (Simulation.forceDeltas P params rng).1 P.length = Vec2.zero := by
  unfold Simulation.forceDeltas
  simp only [h3, h5, Bool.false_eq_true, false_and, if_false]
  by_cases hg1 : params.edge_regularization_enabled = true ∧
      0 < params.edge_stiffness ∧ 0 < params.target_edge_length <;>
    by_cases hg2 : params.repulsion_enabled = true ∧
        0 < params.repulsion_strength ∧ 0 < params.repulsion_radius <;>
    simp [hg1, hg2, repulsionFold_sum, edgeSpringFold_sum, sumRange_zero_fun]

/-- With split disabled, the stepped polygon is exactly the force-applied
vertex list. -/
theorem step_polygon_no_split (sim : Simulation) (params : SimParams)
    (hne : sim.polygon.vertices.length ≠ 0)
    (h4 : params.split_enabled = false) :
    (sim.step params).polygon.vertices =
      Simulation.forcedPositions sim.polygon.vertices params sim.rng := by
  unfold Simulation.step
  rw [if_neg hne]
  simp only [h4, Bool.false_eq_true, false_and, if_false]

/-- Splitting a pointwise sum of displacement fields. -/
theorem sumRange_add (f g : ℕ → Vec2) (n : ℕ) :
    sumRange (fun i => f i + g i) n = sumRange f n + sumRange g n := by
  induction n with
  | zero =>
      simp [sumRange, Vec2.zero, Vec2.ext_iff]
  | succ n ih =>
      simp only [sumRange, ih]
      simp [Vec2.ext_iff]
      constructor <;> ring

/-- The centroid fold over a mapped range is the running total `sumRange`. -/
theorem foldl_add_map_range (f : ℕ → Vec2) (n : ℕ) (z : Vec2) :
    ((List.range n).map f).foldl (fun acc v => acc + v) z = z + sumRange f n := by
  induction n with
  | zero =>
      simp [sumRange, Vec2.zero, Vec2.ext_iff]
  | succ n ih =>
      rw [List.range_succ, List.map_append, List.foldl_append, ih]
      simp only [List.map_cons, List.map_nil, List.foldl_cons, List.foldl_nil, sumRange]
      exact Vec2.add_assoc' _ _ _

/-- Claim C7: with jitter, growth and split disabled, a step with edge
springs and repulsion enabled leaves the vertex centroid unchanged: every
spring and repulsion contribution is applied equal-and-opposite to a pair of
vertices, so the displacements sum to zero. -/
theorem C7_centroid_invariant (params : SimParams) (sim : Simulation)
    (hne : sim.polygon.vertices ≠ [])
    (h1 : params.edge_regularization_enabled = true)
    (hrep : params.repulsion_enabled = true)
    (h3 : params.growth_enabled = false)
    (h4 : params.split_enabled = false)
    (h5 : params.jitter_enabled = false) :
    (sim.step params).polygon.centroid = sim.polygon.centroid := by
  have hlen : sim.polygon.vertices.length ≠ 0 := by simpa using hne
  have hv := step_polygon_no_split sim params hlen h4
  have hsum := forceDeltas_sum sim.polygon.vertices params sim.rng h3 h5
  unfold Polygon.centroid
  rw [hv]
  unfold Simulation.forcedPositions
  have hlen2 : ((List.range sim.polygon.vertices.length).map
      (fun i => pget sim.polygon.vertices i +
        (Simulation.forceDeltas sim.polygon.vertices params sim.rng).1 i)).length =
      sim.polygon.vertices.length := by
    simp
  have hE1 : ¬ (((List.range sim.polygon.vertices.length).map
      (fun i => pget sim.polygon.vertices i +
        (Simulation.forceDeltas sim.polygon.vertices params sim.rng).1 i)).isEmpty = true) := by
    rw [List.isEmpty_iff]
    intro hcon
    have := congrArg List.length hcon
    rw [hlen2] at this
    simp at this
    exact hne this
  have hE2 : ¬ (sim.polygon.vertices.isEmpty = true) := by
    rw [List.isEmpty_iff]
    exact hne
  rw [if_neg hE1, if_neg hE2]
  have hfold1 := foldl_add_map_range
    (fun i => pget sim.polygon.vertices i +
      (Simulation.forceDeltas sim.polygon.vertices params sim.rng).1 i)
    sim.polygon.vertices.length Vec2.zero
  have hfold2 : sim.polygon.vertices.foldl (fun acc v => acc + v) Vec2.zero =
      Vec2.zero + sumRange (pget sim.polygon.vertices) sim.polygon.vertices.length := by
    conv_lhs => rw [← map_pget_range sim.polygon.vertices]
    exact foldl_add_map_range _ _ _
  rw [hfold1, hfold2, sumRange_add, hsum, hlen2]
  rw [Vec2.add_zero', Vec2.zero_add']

/-- Witness for C7: a concrete non-equilateral triangle with springs and
repulsion enabled. -/
theorem C7_centroid_invariant_witness :
    (Simulation.mk ⟨[⟨0, 0⟩, ⟨2, 0⟩, ⟨0, 1⟩]⟩ 0 1).polygon.vertices ≠ [] ∧
    ((Simulation.mk ⟨[⟨0, 0⟩, ⟨2, 0⟩, ⟨0, 1⟩]⟩ 0 1).step
        ⟨true, 1, 1 / 2, true, 3, 1 / 100, false, 0, false, 0, false, 0⟩).polygon.centroid =
      (Simulation.mk ⟨[⟨0, 0⟩, ⟨2, 0⟩, ⟨0, 1⟩]⟩ 0 1).polygon.centroid :=
  ⟨by simp,
   C7_centroid_invariant _ _ (by simp) rfl rfl rfl rfl rfl⟩

/-- A fold is determined by its body's action on the list's elements. -/
theorem foldl_congr' {α β : Type} (f g : α → β → α) (l : List β)
    (h : ∀ a b, b ∈ l → f a b = g a b) (a : α) : l.foldl f a = l.foldl g a := by
  induction l generalizing a with
  | nil => rfl
  | cons x xs ih =>
      rw [List.foldl_cons, List.foldl_cons, h a x (List.mem_cons_self x xs)]
      exact ih (fun a b hb => h a b (List.mem_cons_of_mem x hb)) _

/-- Each vertex of the regular n-gon lies at distance `r` from the origin. -/
theorem ngonVertex_length (r : ℝ) (n i : ℕ) (hr : 0 ≤ r) :
    (Polygon.ngonVertex r n i).length = r := by
  unfold Polygon.ngonVertex Vec2.length Vec2.lengthSquared
  have h : r * Real.cos (2 * π * i / n) * (r * Real.cos (2 * π * i / n)) +
      r * Real.sin (2 * π * i / n) * (r * Real.sin (2 * π * i / n)) = r ^ 2 := by
    linear_combination r ^ 2 * Real.sin_sq_add_cos_sq (2 * π * i / n)
  rw [h, Real.sqrt_sq hr]

/-- Signed area of the counter-clockwise regular n-gon:
`n · r² · sin(2π/n) / 2`, which is nonnegative. -/
theorem signed_area_ngon (r : ℝ) (n : ℕ) (hn : 3 ≤ n) :
    signed_area ((List.range n).map (Polygon.ngonVertex r n)) =
      0.5 * (n * (r ^ 2 * Real.sin (2 * π / n))) := by
  have hn0 : n ≠ 0 := by omega
  simp only [signed_area, List.length_map, List.length_range]
  rw [if_neg (by omega)]
  rw [foldl_add_range]
  have hterm : ∀ i ∈ Finset.range n,
      (pget ((List.range n).map (Polygon.ngonVertex r n)) i).x *
          (pget ((List.range n).map (Polygon.ngonVertex r n)) ((i + 1) % n)).y -
        (pget ((List.range n).map (Polygon.ngonVertex r n)) ((i + 1) % n)).x *
          (pget ((List.range n).map (Polygon.ngonVertex r n)) i).y =
      r ^ 2 * Real.sin (2 * π / n) := by
    intro i hi
    have hi' : i < n := Finset.mem_range.mp hi
    rw [pget_ngon _ _ _ hi', pget_ngon _ _ _ (Nat.mod_lt _ (by omega)),
      Polygon.ngonVertex_mod _ _ _ hn0]
    unfold Polygon.ngonVertex
    have hang : 2 * π * ((i + 1 : ℕ) : ℝ) / n - 2 * π * (i : ℝ) / n = 2 * π / n := by
      have hnr : (n : ℝ) ≠ 0 := Nat.cast_ne_zero.mpr hn0
      push_cast
      field_simp
      ring
    have hsub := Real.sin_sub (2 * π * ((i + 1 : ℕ) : ℝ) / n) (2 * π * (i : ℝ) / n)
    rw [hang] at hsub
    simp only []
    linear_combination (-(r ^ 2)) * hsub
  rw [Finset.sum_congr rfl hterm, Finset.sum_const, Finset.card_range, nsmul_eq_mul]
  ring

/-- The growth body on the counter-clockwise regular n-gon adds the INWARD
radial vector `(-cos θᵢ, -sin θᵢ) · growth_rate` at vertex `i`: with
`outward_sign = -1` (the CCW case), the computed normal points toward the
origin. -/
theorem growthBody_ngon (r : ℝ) (n : ℕ) (params : SimParams) (hr : 0 < r)
    (hn : 3 ≤ n) (hthr : (1e-12 : ℝ) < 2 * r * Real.sin (2 * π / n))
    (d : ℕ → Vec2) (i : ℕ) (hi : i < n) :
    growthBody ((List.range n).map (Polygon.ngonVertex r n)) params (-1) d i =
      updAdd d i
        ((Vec2.mk (-(Real.cos (2 * π * (i : ℝ) / n))) (-(Real.sin (2 * π * (i : ℝ) / n)))).mul
          params.growth_rate) := by
  have hn0 : n ≠ 0 := by omega
  have hnr : (n : ℝ) ≠ 0 := Nat.cast_ne_zero.mpr hn0
  have hnrpos : (0 : ℝ) < n := by
    have h : (0 : ℕ) < n := by omega
    exact_mod_cast h
  have hs0 : 0 < Real.sin (2 * π / n) := by
    apply Real.sin_pos_of_pos_of_lt_pi
    · positivity
    · rw [div_lt_iff hnrpos]
      have hn3 : (3 : ℝ) ≤ n := by exact_mod_cast hn
      nlinarith [Real.pi_pos]
  simp only [growthBody, List.length_map, List.length_range]
  rw [pget_ngon _ _ _ (Nat.mod_lt _ (by omega)), pget_ngon _ _ _ (Nat.mod_lt _ (by omega)),
    Polygon.ngonVertex_mod _ _ _ hn0, Polygon.ngonVertex_mod _ _ _ hn0]
  unfold Polygon.ngonVertex
  -- abbreviations: A = prev angle, B = next angle, θ = this vertex's angle
  have hBA : (2 * π * ((i + 1 : ℕ) : ℝ) / n - 2 * π * ((i + n - 1 : ℕ) : ℝ) / n) / 2 =
      2 * π / n - π := by
    rw [Nat.cast_sub (show 1 ≤ i + n by omega)]
    push_cast
    field_simp
    ring
  have hBA2 : (2 * π * ((i + 1 : ℕ) : ℝ) / n + 2 * π * ((i + n - 1 : ℕ) : ℝ) / n) / 2 =
      2 * π * (i : ℝ) / n + π := by
    rw [Nat.cast_sub (show 1 ≤ i + n by omega)]
    push_cast
    field_simp
    ring
  have hsinBA : Real.sin ((2 * π * ((i + 1 : ℕ) : ℝ) / n -
      2 * π * ((i + n - 1 : ℕ) : ℝ) / n) / 2) = -(Real.sin (2 * π / n)) := by
    rw [hBA, Real.sin_sub, Real.cos_pi, Real.sin_pi]
    ring
  have hsinth : Real.sin (2 * π * (i : ℝ) / n + π) = -(Real.sin (2 * π * (i : ℝ) / n)) := by
    rw [Real.sin_add, Real.cos_pi, Real.sin_pi]
    ring
  have hcosth : Real.cos (2 * π * (i : ℝ) / n + π) = -(Real.cos (2 * π * (i : ℝ) / n)) := by
    rw [Real.cos_add, Real.cos_pi, Real.sin_pi]
    ring
  have hS : r * Real.cos (2 * π * ((i + 1 : ℕ) : ℝ) / n) -
      r * Real.cos (2 * π * ((i + n - 1 : ℕ) : ℝ) / n) =
      -(2 * r * Real.sin (2 * π * (i : ℝ) / n) * Real.sin (2 * π / n)) := by
    have h1 := Real.cos_sub_cos (2 * π * ((i + 1 : ℕ) : ℝ) / n)
      (2 * π * ((i + n - 1 : ℕ) : ℝ) / n)
    rw [hBA2, hsinBA, hsinth] at h1
    linear_combination r * h1
  have hT : r * Real.sin (2 * π * ((i + 1 : ℕ) : ℝ) / n) -
      r * Real.sin (2 * π * ((i + n - 1 : ℕ) : ℝ) / n) =
      2 * r * Real.cos (2 * π * (i : ℝ) / n) * Real.sin (2 * π / n) := by
    have h1 := Real.sin_sub_sin (2 * π * ((i + 1 : ℕ) : ℝ) / n)
      (2 * π * ((i + n - 1 : ℕ) : ℝ) / n)
    rw [hBA2, hsinBA, hcosth] at h1
    linear_combination r * h1
  simp only [Vec2.sub_def, Vec2.length, Vec2.lengthSquared, Vec2.div, Vec2.mul]
  rw [hS, hT]
  have hQ : -(2 * r * Real.sin (2 * π * (i : ℝ) / n) * Real.sin (2 * π / n)) *
        -(2 * r * Real.sin (2 * π * (i : ℝ) / n) * Real.sin (2 * π / n)) +
      2 * r * Real.cos (2 * π * (i : ℝ) / n) * Real.sin (2 * π / n) *
        (2 * r * Real.cos (2 * π * (i : ℝ) / n) * Real.sin (2 * π / n)) =
      (2 * r * Real.sin (2 * π / n)) ^ 2 := by
    linear_combination (4 * r ^ 2 * Real.sin (2 * π / n) ^ 2) *
      Real.sin_sq_add_cos_sq (2 * π * (i : ℝ) / n)
  rw [hQ, Real.sqrt_sq (by positivity)]
  rw [if_neg (by linarith)]
  have hrne : r ≠ 0 := ne_of_gt hr
  have hsne : Real.sin (2 * π / n) ≠ 0 := ne_of_gt hs0
  have hx : 2 * r * Real.cos (2 * π * (i : ℝ) / n) * Real.sin (2 * π / n) /
        (2 * r * Real.sin (2 * π / n)) * (-1) * params.growth_rate =
      -(Real.cos (2 * π * (i : ℝ) / n)) * params.growth_rate := by
    field_simp
    ring
  have hy : -(-(2 * r * Real.sin (2 * π * (i : ℝ) / n) * Real.sin (2 * π / n)) /
        (2 * r * Real.sin (2 * π / n))) * (-1) * params.growth_rate =
      -(Real.sin (2 * π * (i : ℝ) / n)) * params.growth_rate := by
    field_simp
    ring
  rw [hx, hy]

/-- Pointwise effect of the growth pass on the counter-clockwise regular
n-gon: vertex `i` receives the inward radial displacement. -/
theorem growthFold_ngon_at (r : ℝ) (n : ℕ) (params : SimParams) (hr : 0 < r)
    (hn : 3 ≤ n) (hthr : (1e-12 : ℝ) < 2 * r * Real.sin (2 * π / n))
    (d : ℕ → Vec2) (i : ℕ) (hi : i < n) :
    growthFold ((List.range n).map (Polygon.ngonVertex r n)) params d i =
      d i +
        (Vec2.mk (-(Real.cos (2 * π * (i : ℝ) / n))) (-(Real.sin (2 * π * (i : ℝ) / n)))).mul
          params.growth_rate := by
  have hnrpos : (0 : ℝ) < n := by
    have h : (0 : ℕ) < n := by omega
    exact_mod_cast h
  have harea : 0 ≤ signed_area ((List.range n).map (Polygon.ngonVertex r n)) := by
    rw [signed_area_ngon r n hn]
    have hsin : 0 ≤ Real.sin (2 * π / n) := by
      apply Real.sin_nonneg_of_nonneg_of_le_pi
      · positivity
      · rw [div_le_iff hnrpos]
        have hn3 : (3 : ℝ) ≤ n := by exact_mod_cast hn
        nlinarith [Real.pi_pos]
    have h1 : (0 : ℝ) ≤ (n : ℝ) * (r ^ 2 * Real.sin (2 * π / n)) := by
      apply mul_nonneg hnrpos.le
      exact mul_nonneg (sq_nonneg r) hsin
    linarith
  simp only [growthFold, List.length_map, List.length_range]
  rw [if_pos harea]
  rw [foldl_congr' (growthBody ((List.range n).map (Polygon.ngonVertex r n)) params (-1))
    (fun a j => updAdd a j
      ((Vec2.mk (-(Real.cos (2 * π * (j : ℝ) / n))) (-(Real.sin (2 * π * (j : ℝ) / n)))).mul
        params.growth_rate))
    (List.range n)
    (fun a j hj => growthBody_ngon r n params hr hn hthr a j (List.mem_range.mp hj)) d]
  exact foldl_updAdd_at _ n i hi d

/-- Claim C1 (evaluation at the failing input): on the counter-clockwise
regular n-gon, a growth-only step with `0 < growth_rate < radius` moves every
vertex radially INWARD: its distance from the origin drops from `radius` to
`radius - growth_rate`, strictly decreasing — the opposite of the claimed
strict increase. -/
theorem C1_growth_moves_inward (r : ℝ) (n : ℕ) (params : SimParams)
    (sim : Simulation) (i : ℕ) (hi : i < n)
    (hr : 0 < r) (hn : 3 ≤ n)
    (hg0 : 0 < params.growth_rate) (hgr : params.growth_rate < r)
    (hthr : (1e-12 : ℝ) < 2 * r * Real.sin (2 * π / n))
    (hgrow : params.growth_enabled = true)
    (h1 : params.edge_regularization_enabled = false)
    (h2 : params.repulsion_enabled = false)
    (h4 : params.split_enabled = false)
    (h5 : params.jitter_enabled = false)
    (hpoly : sim.polygon = Polygon.regular_ngon r n) :
    (pget sim.polygon.vertices i).length = r ∧
    (pget (sim.step params).polygon.vertices i).length = r - params.growth_rate ∧
    (pget (sim.step params).polygon.vertices i).length <
      (pget sim.polygon.vertices i).length := by
  have hpolyv : sim.polygon.vertices = (List.range n).map (Polygon.ngonVertex r n) := by
    rw [hpoly, Polygon.regular_ngon_vertices r n hr hn]
  have hlen : sim.polygon.vertices.length ≠ 0 := by
    rw [hpolyv]
    simp
    omega
  have hold : (pget sim.polygon.vertices i).length = r := by
    rw [hpolyv, pget_ngon _ _ _ hi]
    exact ngonVertex_length r n i hr.le
  have hv := step_polygon_no_split sim params hlen h4
  have hdelta : (Simulation.forceDeltas ((List.range n).map (Polygon.ngonVertex r n))
        params sim.rng).1 =
      growthFold ((List.range n).map (Polygon.ngonVertex r n)) params
        (fun _ => Vec2.zero) := by
    unfold Simulation.forceDeltas
    simp [h1, h2, h5, hgrow, ne_of_gt hg0]
  have hnew : pget (sim.step params).polygon.vertices i =
      Vec2.mk ((r - params.growth_rate) * Real.cos (2 * π * (i : ℝ) / n))
        ((r - params.growth_rate) * Real.sin (2 * π * (i : ℝ) / n)) := by
    rw [hv, hpolyv]
    unfold Simulation.forcedPositions
    simp only [List.length_map, List.length_range]
    rw [pget_map_range _ _ _ hi, hdelta,
      growthFold_ngon_at r n params hr hn hthr _ i hi, pget_ngon _ _ _ hi]
    unfold Polygon.ngonVertex Vec2.mul
    simp [Vec2.zero, Vec2.ext_iff]
    constructor <;> ring
  have hnewlen : (pget (sim.step params).polygon.vertices i).length =
      r - params.growth_rate := by
    rw [hnew, Vec2.length, Vec2.lengthSquared]
    have hq : (r - params.growth_rate) * Real.cos (2 * π * (i : ℝ) / n) *
          ((r - params.growth_rate) * Real.cos (2 * π * (i : ℝ) / n)) +
        (r - params.growth_rate) * Real.sin (2 * π * (i : ℝ) / n) *
          ((r - params.growth_rate) * Real.sin (2 * π * (i : ℝ) / n)) =
        (r - params.growth_rate) ^ 2 := by
      linear_combination ((r - params.growth_rate) ^ 2) *
        Real.sin_sq_add_cos_sq (2 * π * (i : ℝ) / n)
    rw [hq, Real.sqrt_sq (by linarith)]
  refine ⟨hold, hnewlen, ?lt⟩
  rw [hnewlen, hold]
  linarith

/-- Witness for C1: unit square n-gon, growth rate 1/100, vertex 0 moves from
distance 1 to distance 99/100. -/
theorem C1_growth_moves_inward_witness :
    (0 : ℝ) < (1 / 100 : ℝ) ∧
    ((pget (Simulation.mk (Polygon.regular_ngon 1 4) 0 1).polygon.vertices 0).length = 1 ∧
     (pget ((Simulation.mk (Polygon.regular_ngon 1 4) 0 1).step
         ⟨false, 0, 0, false, 0, 0, true, 1 / 100, false, 0, false, 0⟩).polygon.vertices 0).length =
       1 - (1 / 100 : ℝ) ∧
     (pget ((Simulation.mk (Polygon.regular_ngon 1 4) 0 1).step
         ⟨false, 0, 0, false, 0, 0, true, 1 / 100, false, 0, false, 0⟩).polygon.vertices 0).length <
       (pget (Simulation.mk (Polygon.regular_ngon 1 4) 0 1).polygon.vertices 0).length) :=
  ⟨by norm_num,
   C1_growth_moves_inward 1 4 _ _ 0 (by norm_num) (by norm_num) (by norm_num)
     (by norm_num) (by norm_num)
     (by
       have h4 : (2 * π / ((4 : ℕ) : ℝ)) = π / 2 := by
         push_cast
         ring
       rw [h4, Real.sin_pi_div_two]
       norm_num)
     rfl rfl rfl rfl rfl rfl⟩

/-- Accumulating appends in a fold builds the flattened block list. -/
theorem foldl_append_eq_flatten {α β : Type} (g : β → List α) (l : List β)
    (acc : List α) :
    l.foldl (fun acc i => acc ++ g i) acc = acc ++ (l.map g).flatten := by
  induction l generalizing acc with
  | nil => simp
  | cons x xs ih => simp [ih]

/-- The remesher is the concatenation of its per-edge blocks. -/
theorem splitEdges_eq_flatten (P : List Vec2) (L : ℝ) :
    splitEdges P L = ((List.range P.length).map (splitBlock P L)).flatten := by
  unfold splitEdges
  rw [foldl_append_eq_flatten]
  simp

/-- Number of subsegments the remesher cuts edge `i` into. -/
def segCount (P : List Vec2) (L : ℝ) (i : ℕ) : ℕ :=
  if L < Vec2.distance (pget P i) (pget P ((i + 1) % P.length)) then
    ⌈Vec2.distance (pget P i) (pget P ((i + 1) % P.length)) / L⌉₊
  else 1

theorem segCount_pos (P : List Vec2) (L : ℝ) (hL : 0 < L) (i : ℕ) :
    1 ≤ segCount P L i := by
  unfold segCount
  split
  · rename_i h
    have h1 : (1 : ℝ) < Vec2.distance (pget P i) (pget P ((i + 1) % P.length)) / L :=
      (one_lt_div hL).mpr h
    have := Nat.lt_ceil.mpr (by exact_mod_cast h1 :
      ((1 : ℕ) : ℝ) < Vec2.distance (pget P i) (pget P ((i + 1) % P.length)) / L)
    omega
  · exact le_refl 1

theorem dist_le_mul_segCount (P : List Vec2) (L : ℝ) (hL : 0 < L) (i : ℕ) :
    Vec2.distance (pget P i) (pget P ((i + 1) % P.length)) ≤ L * segCount P L i := by
  unfold segCount
  split
  · rename_i h
    have hle := Nat.le_ceil (Vec2.distance (pget P i) (pget P ((i + 1) % P.length)) / L)
    rw [div_le_iff hL] at hle
    calc Vec2.distance (pget P i) (pget P ((i + 1) % P.length)) ≤
          ⌈Vec2.distance (pget P i) (pget P ((i + 1) % P.length)) / L⌉₊ * L := hle
      _ = L * ⌈Vec2.distance (pget P i) (pget P ((i + 1) % P.length)) / L⌉₊ := by ring
  · rename_i h
    push_neg at h
    simpa using h

/-- The subdivision points of one edge, including its first endpoint. -/
def subdivPoints (a b : Vec2) (s : ℕ) : List Vec2 :=
  (List.range s).map (fun k : ℕ => a.lerp b ((k : ℝ) / (s : ℝ)))

theorem lerp_zero (a b : Vec2) : a.lerp b 0 = a := by
  simp [Vec2.lerp, Vec2.mul, Vec2.ext_iff]

theorem lerp_one (a b : Vec2) : a.lerp b 1 = b := by
  simp [Vec2.lerp, Vec2.mul, Vec2.ext_iff]

/-- Distance between two interpolation points of the same segment. -/
theorem distance_lerp (a b : Vec2) (s t : ℝ) :
    Vec2.distance (a.lerp b s) (a.lerp b t) = |t - s| * Vec2.distance a b := by
  unfold Vec2.distance Vec2.length Vec2.lengthSquared Vec2.lerp
  simp only [Vec2.sub_def, Vec2.add_def, Vec2.mul]
  have h : (a.x + (b.x - a.x) * t - (a.x + (b.x - a.x) * s)) *
        (a.x + (b.x - a.x) * t - (a.x + (b.x - a.x) * s)) +
      (a.y + (b.y - a.y) * t - (a.y + (b.y - a.y) * s)) *
        (a.y + (b.y - a.y) * t - (a.y + (b.y - a.y) * s)) =
      (t - s) ^ 2 * ((b.x - a.x) * (b.x - a.x) + (b.y - a.y) * (b.y - a.y)) := by
    ring
  rw [h, Real.sqrt_mul (sq_nonneg _), Real.sqrt_sq_eq_abs]

/-- With a positive threshold, each remesher block is exactly the subdivision
point list of its edge. -/
theorem splitBlock_eq_subdiv (P : List Vec2) (L : ℝ) (hL : 0 < L) (i : ℕ) :
    splitBlock P L i =
      subdivPoints (pget P i) (pget P ((i + 1) % P.length)) (segCount P L i) := by
  simp only [splitBlock, segCount, subdivPoints]
  by_cases h : L < Vec2.distance (pget P i) (pget P ((i + 1) % P.length))
  · rw [if_pos h, if_pos h]
    have h1 : (1 : ℝ) < Vec2.distance (pget P i) (pget P ((i + 1) % P.length)) / L :=
      (one_lt_div hL).mpr h
    have hseg : 1 < ⌈Vec2.distance (pget P i) (pget P ((i + 1) % P.length)) / L⌉₊ :=
      Nat.lt_ceil.mpr (by exact_mod_cast h1)
    rw [if_pos hseg]
    obtain ⟨q, hq⟩ : ∃ q, ⌈Vec2.distance (pget P i) (pget P ((i + 1) % P.length)) / L⌉₊ =
        q + 1 := ⟨_, (Nat.succ_pred_eq_of_pos (by omega)).symm⟩
    rw [hq, List.range_eq_range']
    rw [show List.range' 0 (q + 1) = 0 :: List.range' 1 q from by
      have hr := List.range'_succ 0 q 1
      simpa using hr]
    rw [List.map_cons]
    simp only [Nat.add_sub_cancel]
    congr 1
    simp [lerp_zero]
  · rw [if_neg h, if_neg h]
    rw [show List.range 1 = [0] from rfl]
    simp [lerp_zero]

theorem subdivPoints_ne_nil (a b : Vec2) (s : ℕ) (hs : 1 ≤ s) :
    subdivPoints a b s ≠ [] := by
  unfold subdivPoints
  simp
  omega

theorem subdivPoints_head (a b : Vec2) (s : ℕ) (hs : 1 ≤ s) :
    (subdivPoints a b s).head? = some a := by
  unfold subdivPoints
  obtain ⟨q, rfl⟩ : ∃ q, s = q + 1 := ⟨s - 1, by omega⟩
  rw [List.range_eq_range']
  rw [show List.range' 0 (q + 1) = 0 :: List.range' 1 q from by
    have hr := List.range'_succ 0 q 1
    simpa using hr]
  simp [lerp_zero]

theorem subdivPoints_getLast (a b : Vec2) (s : ℕ) (hs : 1 ≤ s) :
    (subdivPoints a b s).getLast? =
      some (a.lerp b (((s - 1 : ℕ) : ℝ) / (s : ℝ))) := by
  unfold subdivPoints
  obtain ⟨q, rfl⟩ : ∃ q, s = q + 1 := ⟨s - 1, by omega⟩
  rw [List.range_succ, List.map_append]
  simp only [List.map_cons, List.map_nil]
  rw [List.getLast?_concat]
  simp

/-- The last subdivision point of an edge is within one subsegment of the far
endpoint. -/
theorem last_subdiv_to_end (a b : Vec2) (s : ℕ) (L : ℝ) (hs : 1 ≤ s)
    (hd : Vec2.distance a b ≤ L * s) :
    Vec2.distance (a.lerp b (((s - 1 : ℕ) : ℝ) / (s : ℝ))) b ≤ L := by
  have hsp : (0 : ℝ) < (s : ℝ) := by
    exact_mod_cast (by omega : 0 < s)
  have h1 : Vec2.distance (a.lerp b (((s - 1 : ℕ) : ℝ) / (s : ℝ))) b =
      |1 - ((s - 1 : ℕ) : ℝ) / (s : ℝ)| * Vec2.distance a b := by
    nth_rewrite 2 [show b = a.lerp b 1 from (lerp_one a b).symm]
    rw [distance_lerp]
  rw [h1]
  have hcast : ((s - 1 : ℕ) : ℝ) = (s : ℝ) - 1 := by
    rw [Nat.cast_sub (by omega)]
    simp
  rw [hcast]
  have habs : |1 - ((s : ℝ) - 1) / (s : ℝ)| = 1 / (s : ℝ) := by
    rw [abs_of_nonneg]
    · field_simp
    · rw [sub_nonneg, div_le_one hsp]
      linarith
  rw [habs]
  rw [show 1 / (s : ℝ) * Vec2.distance a b = Vec2.distance a b / s from by ring,
    div_le_iff hsp]
  linarith

/-- Consecutive subdivision points are within one subsegment of each other. -/
theorem chain'_subdivPoints (a b : Vec2) (s : ℕ) (L : ℝ) (hs : 1 ≤ s)
    (hd : Vec2.distance a b ≤ L * s) :
    List.Chain' (fun p q => Vec2.distance p q ≤ L) (subdivPoints a b s) := by
  unfold subdivPoints
  rw [List.chain'_map]
  obtain ⟨q, rfl⟩ : ∃ q, s = q + 1 := ⟨s - 1, by omega⟩
  rw [List.chain'_range_succ]
  intro m hm
  rw [distance_lerp]
  have hsp : (0 : ℝ) < ((q + 1 : ℕ) : ℝ) := by
    exact_mod_cast Nat.succ_pos q
  have habs : |((Nat.succ m : ℕ) : ℝ) / ((q + 1 : ℕ) : ℝ) -
      ((m : ℕ) : ℝ) / ((q + 1 : ℕ) : ℝ)| = 1 / ((q + 1 : ℕ) : ℝ) := by
    rw [div_sub_div_same]
    push_cast
    rw [show ((m : ℝ) + 1 - m) = 1 from by ring]
    rw [abs_of_nonneg (by positivity)]
  rw [habs]
  rw [show 1 / ((q + 1 : ℕ) : ℝ) * Vec2.distance a b =
      Vec2.distance a b / ((q + 1 : ℕ) : ℝ) from by ring, div_le_iff hsp]
  calc Vec2.distance a b ≤ L * ((q + 1 : ℕ) : ℝ) := hd
    _ = L * ((q + 1 : ℕ) : ℝ) := rfl

/-- The remesher output starts with the first input vertex. -/
theorem splitEdges_head (Q : List Vec2) (L : ℝ) (hQ : 1 ≤ Q.length) :
    ∃ t, splitEdges Q L = pget Q 0 :: t := by
  rw [splitEdges_eq_flatten]
  obtain ⟨m, hm⟩ : ∃ m, Q.length = m + 1 := ⟨Q.length - 1, by omega⟩
  rw [hm, List.range_eq_range']
  rw [show List.range' 0 (m + 1) = 0 :: List.range' 1 m from by
    have hr := List.range'_succ 0 m 1
    simpa using hr]
  rw [List.map_cons, List.flatten_cons]
  refine ⟨(if L < Vec2.distance (pget Q 0) (pget Q ((0 + 1) % Q.length)) then
      let segments := ⌈Vec2.distance (pget Q 0) (pget Q ((0 + 1) % Q.length)) / L⌉₊
      if 1 < segments then
        (List.range' 1 (segments - 1)).map
          (fun k : ℕ => (pget Q 0).lerp (pget Q ((0 + 1) % Q.length))
            ((k : ℝ) / (segments : ℝ)))
      else []
    else []) ++ ((List.range' 1 m).map (splitBlock Q L)).flatten, ?_⟩
  rw [show splitBlock Q L 0 = pget Q 0 ::
      (if L < Vec2.distance (pget Q 0) (pget Q ((0 + 1) % Q.length)) then
        let segments := ⌈Vec2.distance (pget Q 0) (pget Q ((0 + 1) % Q.length)) / L⌉₊
        if 1 < segments then
          (List.range' 1 (segments - 1)).map
            (fun k : ℕ => (pget Q 0).lerp (pget Q ((0 + 1) % Q.length))
              ((k : ℝ) / (segments : ℝ)))
        else []
      else []) from rfl]
  rw [List.cons_append]

/-- Cyclic chain of short edges around the remeshed polygon. -/
theorem chain'_splitEdges (Q : List Vec2) (L : ℝ) (hL : 0 < L) (hQ : 1 ≤ Q.length) :
    List.Chain' (fun p q => Vec2.distance p q ≤ L) (splitEdges Q L ++ [pget Q 0]) := by
  rw [splitEdges_eq_flatten]
  rw [show ((List.range Q.length).map (splitBlock Q L)).flatten ++ [pget Q 0] =
      (((List.range Q.length).map (splitBlock Q L)) ++ [[pget Q 0]]).flatten from by
    rw [List.flatten_append]
    simp]
  have hnn : [] ∉ ((List.range Q.length).map (splitBlock Q L)) ++ [[pget Q 0]] := by
    intro hmem
    rcases List.mem_append.mp hmem with hmem | hmem
    · obtain ⟨i, _, hbe⟩ := List.mem_map.mp hmem
      rw [splitBlock_eq_subdiv Q L hL i] at hbe
      exact subdivPoints_ne_nil _ _ _ (segCount_pos Q L hL i) hbe
    · simp at hmem
  rw [List.chain'_flatten hnn]
  constructor
  · intro l hl
    rcases List.mem_append.mp hl with hl | hl
    · obtain ⟨i, _, rfl⟩ := List.mem_map.mp hl
      rw [splitBlock_eq_subdiv Q L hL i]
      exact chain'_subdivPoints _ _ _ L (segCount_pos Q L hL i)
        (dist_le_mul_segCount Q L hL i)
    · simp at hl
      rw [hl]
      exact List.chain'_singleton _
  · rw [List.chain'_append]
    obtain ⟨m, hm⟩ : ∃ m, Q.length = m + 1 := ⟨Q.length - 1, by omega⟩
    refine ⟨?c1, List.chain'_singleton _, ?c3⟩
    case c1 =>
      rw [List.chain'_map, hm, List.chain'_range_succ]
      intro k hk
      intro x hx y hy
      rw [splitBlock_eq_subdiv Q L hL k,
        subdivPoints_getLast _ _ _ (segCount_pos Q L hL k)] at hx
      rw [splitBlock_eq_subdiv Q L hL (Nat.succ k),
        subdivPoints_head _ _ _ (segCount_pos Q L hL (Nat.succ k))] at hy
      simp only [Option.mem_def, Option.some.injEq] at hx hy
      subst hx
      subst hy
      have hmod : (k + 1) % Q.length = k + 1 := Nat.mod_eq_of_lt (by omega)
      have hlast := last_subdiv_to_end (pget Q k) (pget Q ((k + 1) % Q.length))
        (segCount Q L k) L (segCount_pos Q L hL k) (dist_le_mul_segCount Q L hL k)
      rw [hmod] at hlast
      rw [hmod]
      exact hlast
    case c3 =>
      intro x hx y hy
      rw [hm, List.range_succ, List.map_append] at hx
      simp only [List.map_cons, List.map_nil] at hx
      rw [List.getLast?_concat] at hx
      simp only [Option.mem_def, Option.some.injEq] at hx
      subst hx
      simp only [List.head?_cons, Option.mem_def, Option.some.injEq] at hy
      subst hy
      intro x hx y hy
      rw [splitBlock_eq_subdiv Q L hL m,
        subdivPoints_getLast _ _ _ (segCount_pos Q L hL m)] at hx
      simp only [List.head?_cons, Option.mem_def, Option.some.injEq] at hy
      simp only [Option.mem_def, Option.some.injEq] at hx
      subst hx
      subst hy
      have hmod : (m + 1) % Q.length = 0 := by
        rw [hm]
        simp
      have hlast := last_subdiv_to_end (pget Q m) (pget Q ((m + 1) % Q.length))
        (segCount Q L m) L (segCount_pos Q L hL m) (dist_le_mul_segCount Q L hL m)
      rw [show pget Q 0 = pget Q ((m + 1) % Q.length) from by rw [hmod]]
      exact hlast

/-- From a chain around the closed polygon to the indexed cyclic edge bound. -/
theorem chain'_cyclic_to_pget (V : List Vec2) (L : ℝ) (hV : V ≠ [])
    (h : List.Chain' (fun p q => Vec2.distance p q ≤ L) (V ++ [pget V 0]))
    (m : ℕ) (hm : m < V.length) :
    Vec2.distance (pget V m) (pget V ((m + 1) % V.length)) ≤ L := by
  rw [List.chain'_iff_get] at h
  have hm' : m < (V ++ [pget V 0]).length - 1 := by
    simp
    omega
  have hR := h m hm'
  simp only [List.get_eq_getElem] at hR
  rcases Nat.lt_or_ge (m + 1) V.length with hlt | hge
  · have goal_eq : Vec2.distance (pget V m) (pget V ((m + 1) % V.length)) =
        Vec2.distance (V.get ⟨m, hm⟩) (V.get ⟨m + 1, hlt⟩) := by
      rw [Nat.mod_eq_of_lt hlt]
      unfold pget
      rw [List.getD_eq_getElem _ _ hm, List.getD_eq_getElem _ _ hlt,
        List.get_eq_getElem, List.get_eq_getElem]
    rw [goal_eq]
    rw [List.getElem_append_left hm, List.getElem_append_left hlt] at hR
    exact hR
  · have heq : m + 1 = V.length := by omega
    have hmod : (m + 1) % V.length = 0 := by
      rw [heq, Nat.mod_self]
    have goal_eq : Vec2.distance (pget V m) (pget V ((m + 1) % V.length)) =
        Vec2.distance (V.get ⟨m, hm⟩) (pget V 0) := by
      rw [hmod]
      unfold pget
      rw [List.getD_eq_getElem _ _ hm, List.get_eq_getElem]
    rw [goal_eq]
    rw [List.getElem_append_left hm, List.getElem_append_right (by omega)] at hR
    have hidx : m + 1 - V.length = 0 := by omega
    simp only [hidx] at hR
    simpa using hR

/-- A list of heads is a sublist of the flattened blocks it heads. -/
theorem sublist_flatten_of_heads {α : Type} (f : ℕ → α) (g : ℕ → List α)
    (l : List ℕ) (h : ∀ i ∈ l, ∃ t, g i = f i :: t) :
    (l.map f).Sublist ((l.map g).flatten) := by
  induction l with
  | nil => simp
  | cons x xs ih =>
      obtain ⟨t, ht⟩ := h x (List.mem_cons_self x xs)
      simp only [List.map_cons, List.flatten_cons]
      rw [ht, List.cons_append]
      exact List.Sublist.cons₂ _
        ((ih (fun i hi => h i (List.mem_cons_of_mem x hi))).trans
          (List.sublist_append_right t _))

/-- The input vertices survive the remesh in order. -/
theorem splitEdges_sublist (Q : List Vec2) (L : ℝ) :
    Q.Sublist (splitEdges Q L) := by
  rw [splitEdges_eq_flatten]
  have h := sublist_flatten_of_heads (pget Q) (splitBlock Q L)
    (List.range Q.length) (fun i _ => ⟨_, rfl⟩)
  rwa [map_pget_range] at h

/-- Every remeshed vertex lies on the straight segment between an input
vertex and its cyclic successor. -/
theorem splitEdges_mem (Q : List Vec2) (L : ℝ) (hL : 0 < L) (v : Vec2)
    (hv : v ∈ splitEdges Q L) :
    ∃ i, i < Q.length ∧ ∃ t : ℝ, 0 ≤ t ∧ t ≤ 1 ∧
      v = (pget Q i).lerp (pget Q ((i + 1) % Q.length)) t := by
  rw [splitEdges_eq_flatten] at hv
  obtain ⟨l, hl, hvl⟩ := List.mem_flatten.mp hv
  obtain ⟨i, hi, rfl⟩ := List.mem_map.mp hl
  rw [splitBlock_eq_subdiv Q L hL] at hvl
  unfold subdivPoints at hvl
  obtain ⟨k, hk, rfl⟩ := List.mem_map.mp hvl
  have hk' : k < segCount Q L i := List.mem_range.mp hk
  have hs := segCount_pos Q L hL i
  have hsp : (0 : ℝ) < (segCount Q L i : ℝ) := by
    exact_mod_cast (by omega : 0 < segCount Q L i)
  refine ⟨i, List.mem_range.mp hi, (k : ℝ) / (segCount Q L i : ℝ), by positivity, ?_, rfl⟩
  rw [div_le_one hsp]
  exact_mod_cast hk'.le

/-- With split enabled, a positive threshold and at least two vertices, the
stepped polygon is the remesh of the force-applied positions. -/
theorem step_polygon_split (sim : Simulation) (params : SimParams)
    (hsp : params.split_enabled = true) (hL : 0 < params.split_length)
    (h2 : 2 ≤ sim.polygon.vertices.length) :
    (sim.step params).polygon.vertices =
      splitEdges (Simulation.forcedPositions sim.polygon.vertices params sim.rng)
        params.split_length := by
  have hne : sim.polygon.vertices.length ≠ 0 := by omega
  have hlen : (Simulation.forcedPositions sim.polygon.vertices params sim.rng).length =
      sim.polygon.vertices.length := by
    unfold Simulation.forcedPositions
    simp
  unfold Simulation.step
  rw [if_neg hne]
  have hcond : params.split_enabled = true ∧ 0 < params.split_length ∧
      2 ≤ (Simulation.forcedPositions sim.polygon.vertices params sim.rng).length :=
    ⟨hsp, hL, by rw [hlen]; omega⟩
  simp only [if_pos hcond]

/-- Claim C8: after a step with splitting enabled at `L = split_length > 0`
on a polygon with at least two vertices, every cyclic edge of the result has
length at most `L · 2`; the force-applied vertices appear in the result in
the same order; and every result vertex lies on a straight segment between
cyclically consecutive force-applied vertices. -/
theorem C8_remesh_bound (params : SimParams) (sim : Simulation)
    (hsp : params.split_enabled = true) (hL : 0 < params.split_length)
    (h2 : 2 ≤ sim.polygon.vertices.length) :
    (∀ m < (sim.step params).polygon.vertices.length,
      Vec2.distance (pget (sim.step params).polygon.vertices m)
        (pget (sim.step params).polygon.vertices
          ((m + 1) % (sim.step params).polygon.vertices.length)) ≤
        params.split_length * 2) ∧
    (Simulation.forcedPositions sim.polygon.vertices params sim.rng).Sublist
      (sim.step params).polygon.vertices ∧
    (∀ v ∈ (sim.step params).polygon.vertices,
      ∃ i, i < (Simulation.forcedPositions sim.polygon.vertices params sim.rng).length ∧
        ∃ t : ℝ, 0 ≤ t ∧ t ≤ 1 ∧
          v = (pget (Simulation.forcedPositions sim.polygon.vertices params sim.rng) i).lerp
            (pget (Simulation.forcedPositions sim.polygon.vertices params sim.rng)
              ((i + 1) %
                (Simulation.forcedPositions sim.polygon.vertices params sim.rng).length)) t) := by
  have hlen : (Simulation.forcedPositions sim.polygon.vertices params sim.rng).length =
      sim.polygon.vertices.length := by
    unfold Simulation.forcedPositions
    simp
  have hQ1 : 1 ≤ (Simulation.forcedPositions sim.polygon.vertices params sim.rng).length := by
    omega
  have hv := step_polygon_split sim params hsp hL h2
  rw [hv]
  obtain ⟨tl, hhd⟩ := splitEdges_head
    (Simulation.forcedPositions sim.polygon.vertices params sim.rng)
    params.split_length hQ1
  have hVne : splitEdges (Simulation.forcedPositions sim.polygon.vertices params sim.rng)
      params.split_length ≠ [] := by
    rw [hhd]
    simp
  have hhead0 : pget (splitEdges
      (Simulation.forcedPositions sim.polygon.vertices params sim.rng)
      params.split_length) 0 =
      pget (Simulation.forcedPositions sim.polygon.vertices params sim.rng) 0 := by
    rw [hhd]
    rfl
  refine ⟨?bound, splitEdges_sublist _ _, fun v hv' => splitEdges_mem _ _ hL v hv'⟩
  intro m hm
  have hch := chain'_splitEdges
    (Simulation.forcedPositions sim.polygon.vertices params sim.rng)
    params.split_length hL hQ1
  rw [← hhead0] at hch
  have hb := chain'_cyclic_to_pget _ params.split_length hVne hch m hm
  linarith

/-- Witness for C8: concrete right triangle, split-only step, threshold 5. -/
theorem C8_remesh_bound_witness :
    (0 : ℝ) < (5 : ℝ) ∧
    2 ≤ (Simulation.mk ⟨[⟨0, 0⟩, ⟨1, 0⟩, ⟨0, 1⟩]⟩ 0 1).polygon.vertices.length ∧
    ((∀ m < ((Simulation.mk ⟨[⟨0, 0⟩, ⟨1, 0⟩, ⟨0, 1⟩]⟩ 0 1).step
          ⟨false, 0, 0, false, 0, 0, false, 0, true, 5, false, 0⟩).polygon.vertices.length,
      Vec2.distance
        (pget ((Simulation.mk ⟨[⟨0, 0⟩, ⟨1, 0⟩, ⟨0, 1⟩]⟩ 0 1).step
          ⟨false, 0, 0, false, 0, 0, false, 0, true, 5, false, 0⟩).polygon.vertices m)
        (pget ((Simulation.mk ⟨[⟨0, 0⟩, ⟨1, 0⟩, ⟨0, 1⟩]⟩ 0 1).step
          ⟨false, 0, 0, false, 0, 0, false, 0, true, 5, false, 0⟩).polygon.vertices
          ((m + 1) % ((Simulation.mk ⟨[⟨0, 0⟩, ⟨1, 0⟩, ⟨0, 1⟩]⟩ 0 1).step
            ⟨false, 0, 0, false, 0, 0, false, 0, true, 5, false, 0⟩).polygon.vertices.length)) ≤
        (⟨false, 0, 0, false, 0, 0, false, 0, true, 5, false, 0⟩ : SimParams).split_length * 2) ∧
    (Simulation.forcedPositions (Simulation.mk ⟨[⟨0, 0⟩, ⟨1, 0⟩, ⟨0, 1⟩]⟩ 0 1).polygon.vertices
        ⟨false, 0, 0, false, 0, 0, false, 0, true, 5, false, 0⟩
        (Simulation.mk ⟨[⟨0, 0⟩, ⟨1, 0⟩, ⟨0, 1⟩]⟩ 0 1).rng).Sublist
      ((Simulation.mk ⟨[⟨0, 0⟩, ⟨1, 0⟩, ⟨0, 1⟩]⟩ 0 1).step
        ⟨false, 0, 0, false, 0, 0, false, 0, true, 5, false, 0⟩).polygon.vertices ∧
    (∀ v ∈ ((Simulation.mk ⟨[⟨0, 0⟩, ⟨1, 0⟩, ⟨0, 1⟩]⟩ 0 1).step
        ⟨false, 0, 0, false, 0, 0, false, 0, true, 5, false, 0⟩).polygon.vertices,
      ∃ i, i < (Simulation.forcedPositions
          (Simulation.mk ⟨[⟨0, 0⟩, ⟨1, 0⟩, ⟨0, 1⟩]⟩ 0 1).polygon.vertices
          ⟨false, 0, 0, false, 0, 0, false, 0, true, 5, false, 0⟩
          (Simulation.mk ⟨[⟨0, 0⟩, ⟨1, 0⟩, ⟨0, 1⟩]⟩ 0 1).rng).length ∧
        ∃ t : ℝ, 0 ≤ t ∧ t ≤ 1 ∧
          v = (pget (Simulation.forcedPositions
              (Simulation.mk ⟨[⟨0, 0⟩, ⟨1, 0⟩, ⟨0, 1⟩]⟩ 0 1).polygon.vertices
              ⟨false, 0, 0, false, 0, 0, false, 0, true, 5, false, 0⟩
              (Simulation.mk ⟨[⟨0, 0⟩, ⟨1, 0⟩, ⟨0, 1⟩]⟩ 0 1).rng) i).lerp
            (pget (Simulation.forcedPositions
              (Simulation.mk ⟨[⟨0, 0⟩, ⟨1, 0⟩, ⟨0, 1⟩]⟩ 0 1).polygon.vertices
              ⟨false, 0, 0, false, 0, 0, false, 0, true, 5, false, 0⟩
              (Simulation.mk ⟨[⟨0, 0⟩, ⟨1, 0⟩, ⟨0, 1⟩]⟩ 0 1).rng)
              ((i + 1) % (Simulation.forcedPositions
                (Simulation.mk ⟨[⟨0, 0⟩, ⟨1, 0⟩, ⟨0, 1⟩]⟩ 0 1).polygon.vertices
                ⟨false, 0, 0, false, 0, 0, false, 0, true, 5, false, 0⟩
                (Simulation.mk ⟨[⟨0, 0⟩, ⟨1, 0⟩, ⟨0, 1⟩]⟩ 0 1).rng).length)) t)) :=
  ⟨by norm_num, by simp,
   C8_remesh_bound ⟨false, 0, 0, false, 0, 0, false, 0, true, 5, false, 0⟩
     (Simulation.mk ⟨[⟨0, 0⟩, ⟨1, 0⟩, ⟨0, 1⟩]⟩ 0 1) rfl (by norm_num) (by simp)⟩
